import Mathlib

/-!
Verification development for the UGTLive OCR post-processing pipeline.

The definitions below are shallow embeddings of the Python source:
* region deduplication and letterboxing from
  `app/services/MangaOCR/server.py` (`calculate_overlap_percent`,
  `process_manga_ocr` steps 1 and 3) and the identical copy in
  `app/webserver/process_image_mangaocr.py`;
* color extraction from `app/services/shared/color_analysis.py`
  (`_GPUColorExtractor`, `_choose_background_foreground`,
  `_format_color_entry`, `extract_foreground_background_colors`,
  `attach_color_info`).

Machine floats are modelled by exact rationals; external library calls
(CuPy k-means, cv2 morphology, PIL polygon rasterization, numpy RNG) are
modelled as explicit oracle parameters.
-/

/-! ### Region deduplicator

`app/services/MangaOCR/server.py` lines 90-106 and 255-277; byte-identical
logic at `app/webserver/process_image_mangaocr.py` lines 262-308.
A filtered detection carries integer bbox coordinates and
`area = (x_max - x_min) * (y_max - y_min)`. -/

structure BBox where
  x_min : ℤ
  y_min : ℤ
  x_max : ℤ
  y_max : ℤ
  area : ℤ
deriving DecidableEq, Repr

/-- `area` as the pipeline computes it when building `filtered_detections`
(server.py line 250): `(x_max - x_min) * (y_max - y_min)`. -/
def BBox.consistentArea (b : BBox) : Prop :=
  b.area = (b.x_max - b.x_min) * (b.y_max - b.y_min)

instance (b : BBox) : Decidable b.consistentArea := by
  unfold BBox.consistentArea; infer_instance

/-- server.py lines 90-106: overlap percentage normalized against the
smaller region's area (floats modelled as exact rationals). -/
def calculate_overlap_percent (bbox1 bbox2 : BBox) : ℚ :=
  let x_overlap : ℤ := max 0 (min bbox1.x_max bbox2.x_max - max bbox1.x_min bbox2.x_min)
  let y_overlap : ℤ := max 0 (min bbox1.y_max bbox2.y_max - max bbox1.y_min bbox2.y_min)
  let intersection_area : ℤ := x_overlap * y_overlap
  if intersection_area = 0 then 0
  else
    let smaller_area : ℤ := min bbox1.area bbox2.area
    if smaller_area = 0 then 0
    else (intersection_area : ℚ) / (smaller_area : ℚ) * 100

/-- The raw intersection area of the two boxes (the numerator the code
computes at lines 93-95). -/
def intersectionArea (bbox1 bbox2 : BBox) : ℤ :=
  max 0 (min bbox1.x_max bbox2.x_max - max bbox1.x_min bbox2.x_min) *
    max 0 (min bbox1.y_max bbox2.y_max - max bbox1.y_min bbox2.y_min)

/-- The inner `for j in range(i + 1, n)` loop of server.py lines 262-275:
scan the remaining indices `js` against pivot `i`, skipping removed ones;
on an overlap above the threshold remove the smaller region — removing the
pivot `i` breaks out of the scan, removing `j` continues it.
The removed set is modelled as the list of indices added so far. -/
def innerScan (bb : ℕ → BBox) (thr : ℚ) (i : ℕ) : List ℕ → List ℕ → List ℕ
  | [], removed => removed
  | j :: js, removed =>
    if j ∈ removed then innerScan bb thr i js removed
    else if thr < calculate_overlap_percent (bb i) (bb j) then
      if (bb i).area < (bb j).area then i :: removed
      else innerScan bb thr i js (j :: removed)
    else innerScan bb thr i js removed

/-- The outer `for i in range(n)` loop of server.py lines 257-275: each
pivot not already removed scans indices `i+1 .. n-1`. -/
def outerScan (bb : ℕ → BBox) (thr : ℚ) (n : ℕ) : List ℕ → List ℕ → List ℕ
  | [], removed => removed
  | i :: rest, removed =>
    if i ∈ removed then outerScan bb thr n rest removed
    else outerScan bb thr n rest (innerScan bb thr i (List.range' (i + 1) (n - (i + 1))) removed)

def dummyBBox : BBox := ⟨0, 0, 0, 0, 0⟩

/-- View a detection list as an indexing function (list indexing in the
Python loops). -/
def bbOf (l : List BBox) : ℕ → BBox := fun k => l.getD k dummyBBox

/-- `regions_to_remove` after both loops have run (server.py lines 256-275). -/
def regionsToRemove (l : List BBox) (thr : ℚ) : List ℕ :=
  outerScan (bbOf l) thr l.length (List.range l.length) []

/-- server.py line 277: `final_detections = [d for i, d in enumerate(...)
if i not in regions_to_remove]` — survivors in original order. -/
def filterOverlappingRegions (l : List BBox) (thr : ℚ) : List BBox :=
  ((List.range l.length).filter (fun i => decide (i ∉ regionsToRemove l thr))).map
    (fun i => l.getD i dummyBBox)

/-! ### Loop lemmas for the deduplicator -/

theorem innerScan_nil (bb : ℕ → BBox) (thr : ℚ) (i : ℕ) (removed : List ℕ) :
    innerScan bb thr i [] removed = removed := rfl

theorem innerScan_cons (bb : ℕ → BBox) (thr : ℚ) (i j : ℕ) (js removed : List ℕ) :
    innerScan bb thr i (j :: js) removed =
      if j ∈ removed then innerScan bb thr i js removed
      else if thr < calculate_overlap_percent (bb i) (bb j) then
        if (bb i).area < (bb j).area then i :: removed
        else innerScan bb thr i js (j :: removed)
      else innerScan bb thr i js removed := rfl

theorem outerScan_nil (bb : ℕ → BBox) (thr : ℚ) (n : ℕ) (removed : List ℕ) :
    outerScan bb thr n [] removed = removed := rfl

theorem outerScan_cons (bb : ℕ → BBox) (thr : ℚ) (n i : ℕ) (rest removed : List ℕ) :
    outerScan bb thr n (i :: rest) removed =
      if i ∈ removed then outerScan bb thr n rest removed
      else outerScan bb thr n rest
        (innerScan bb thr i (List.range' (i + 1) (n - (i + 1))) removed) := rfl

theorem innerScan_mono (bb : ℕ → BBox) (thr : ℚ) (i : ℕ) :
    ∀ (js removed : List ℕ), ∀ x ∈ removed, x ∈ innerScan bb thr i js removed := by
  intro js
  induction js with
  | nil => intro removed x hx; simpa [innerScan_nil] using hx
  | cons j js ih =>
    intro removed x hx
    rw [innerScan_cons]
    by_cases h1 : j ∈ removed
    · rw [if_pos h1]; exact ih removed x hx
    · rw [if_neg h1]
      by_cases h2 : thr < calculate_overlap_percent (bb i) (bb j)
      · rw [if_pos h2]
        by_cases h3 : (bb i).area < (bb j).area
        · rw [if_pos h3]; exact List.mem_cons_of_mem _ hx
        · rw [if_neg h3]; exact ih _ x (List.mem_cons_of_mem _ hx)
      · rw [if_neg h2]; exact ih removed x hx

theorem mem_of_mem_innerScan (bb : ℕ → BBox) (thr : ℚ) (i : ℕ) :
    ∀ (js removed : List ℕ), ∀ x ∈ innerScan bb thr i js removed,
      x ∈ removed ∨ ∃ j ∈ js, thr < calculate_overlap_percent (bb i) (bb j) ∧ (x = i ∨ x = j) := by
  intro js
  induction js with
  | nil => intro removed x hx; exact Or.inl (by simpa [innerScan_nil] using hx)
  | cons j js ih =>
    intro removed x hx
    rw [innerScan_cons] at hx
    by_cases h1 : j ∈ removed
    · rw [if_pos h1] at hx
      rcases ih removed x hx with h | ⟨j', hj', hov, hx'⟩
      · exact Or.inl h
      · exact Or.inr ⟨j', List.mem_cons_of_mem _ hj', hov, hx'⟩
    · rw [if_neg h1] at hx
      by_cases h2 : thr < calculate_overlap_percent (bb i) (bb j)
      · rw [if_pos h2] at hx
        by_cases h3 : (bb i).area < (bb j).area
        · rw [if_pos h3] at hx
          rcases List.mem_cons.1 hx with h | h
          · exact Or.inr ⟨j, List.mem_cons_self _ _, h2, Or.inl h⟩
          · exact Or.inl h
        · rw [if_neg h3] at hx
          rcases ih _ x hx with h | ⟨j', hj', hov, hx'⟩
          · rcases List.mem_cons.1 h with h' | h'
            · exact Or.inr ⟨j, List.mem_cons_self _ _, h2, Or.inr h'⟩
            · exact Or.inl h'
          · exact Or.inr ⟨j', List.mem_cons_of_mem _ hj', hov, hx'⟩
      · rw [if_neg h2] at hx
        rcases ih removed x hx with h | ⟨j', hj', hov, hx'⟩
        · exact Or.inl h
        · exact Or.inr ⟨j', List.mem_cons_of_mem _ hj', hov, hx'⟩

/-- Any index the inner scan leaves unremoved was compared against the
(unremoved) pivot and found to have overlap at most the threshold. -/
theorem innerScan_pairs (bb : ℕ → BBox) (thr : ℚ) (i : ℕ) :
    ∀ (js removed : List ℕ), i ∉ innerScan bb thr i js removed →
      ∀ k ∈ js, k ∉ innerScan bb thr i js removed →
        ¬ thr < calculate_overlap_percent (bb i) (bb k) := by
  intro js
  induction js with
  | nil => intro removed _ k hk; exact absurd hk (List.not_mem_nil k)
  | cons j js ih =>
    intro removed hi k hk hknot
    rw [innerScan_cons] at hi hknot
    by_cases h1 : j ∈ removed
    · rw [if_pos h1] at hi hknot
      rcases List.mem_cons.1 hk with rfl | hk'
      · intro _; exact hknot (innerScan_mono bb thr i js removed k h1)
      · exact ih removed hi k hk' hknot
    · rw [if_neg h1] at hi hknot
      by_cases h2 : thr < calculate_overlap_percent (bb i) (bb j)
      · rw [if_pos h2] at hi hknot
        by_cases h3 : (bb i).area < (bb j).area
        · rw [if_pos h3] at hi
          exact absurd (List.mem_cons_self _ _) hi
        · rw [if_neg h3] at hi hknot
          rcases List.mem_cons.1 hk with rfl | hk'
          · intro _
            exact hknot (innerScan_mono bb thr i js _ k (List.mem_cons_self _ _))
          · exact ih _ hi k hk' hknot
      · rw [if_neg h2] at hi hknot
        rcases List.mem_cons.1 hk with rfl | hk'
        · exact h2
        · exact ih removed hi k hk' hknot

theorem outerScan_mono (bb : ℕ → BBox) (thr : ℚ) (n : ℕ) :
    ∀ (pivots removed : List ℕ), ∀ x ∈ removed, x ∈ outerScan bb thr n pivots removed := by
  intro pivots
  induction pivots with
  | nil => intro removed x hx; simpa [outerScan_nil] using hx
  | cons i rest ih =>
    intro removed x hx
    rw [outerScan_cons]
    by_cases h1 : i ∈ removed
    · rw [if_pos h1]; exact ih removed x hx
    · rw [if_neg h1]; exact ih _ x (innerScan_mono bb thr i _ removed x hx)

/-- Helper: the inner scan of pivot `i` ranges over exactly the indices
strictly between `i` and `n`. -/
theorem mem_range_from {i n k : ℕ} : k ∈ List.range' (i + 1) (n - (i + 1)) ↔ i < k ∧ k < n := by
  simp only [List.mem_range']
  constructor
  · rintro ⟨j, hj, rfl⟩; omega
  · intro h; exact ⟨k - (i + 1), by omega, by omega⟩

theorem mem_of_mem_outerScan (bb : ℕ → BBox) (thr : ℚ) (n : ℕ) :
    ∀ (pivots removed : List ℕ), ∀ x ∈ outerScan bb thr n pivots removed,
      x ∈ removed ∨ ∃ a ∈ pivots, ∃ b, a < b ∧ b < n ∧
        thr < calculate_overlap_percent (bb a) (bb b) ∧ (x = a ∨ x = b) := by
  intro pivots
  induction pivots with
  | nil => intro removed x hx; exact Or.inl (by simpa [outerScan_nil] using hx)
  | cons i rest ih =>
    intro removed x hx
    rw [outerScan_cons] at hx
    by_cases h1 : i ∈ removed
    · rw [if_pos h1] at hx
      rcases ih removed x hx with h | ⟨a, ha, b, hab, hbn, hov, hx'⟩
      · exact Or.inl h
      · exact Or.inr ⟨a, List.mem_cons_of_mem _ ha, b, hab, hbn, hov, hx'⟩
    · rw [if_neg h1] at hx
      rcases ih _ x hx with h | ⟨a, ha, b, hab, hbn, hov, hx'⟩
      · rcases mem_of_mem_innerScan bb thr i _ removed x h with h' | ⟨j, hj, hov, hx'⟩
        · exact Or.inl h'
        · rcases mem_range_from.1 hj with ⟨hij, hjn⟩
          exact Or.inr ⟨i, List.mem_cons_self _ _, j, hij, hjn, hov, hx'⟩
      · exact Or.inr ⟨a, List.mem_cons_of_mem _ ha, b, hab, hbn, hov, hx'⟩

/-- Any two indices both left unremoved by the outer scan were compared and
found not to exceed the threshold (provided every pair whose first index is
no longer among the pending pivots has already been handled). -/
theorem outerScan_pairs (bb : ℕ → BBox) (thr : ℚ) (n : ℕ) :
    ∀ (pivots removed : List ℕ),
      (∀ a b, a < b → b < n → a ∉ outerScan bb thr n pivots removed →
        b ∉ outerScan bb thr n pivots removed → a ∉ pivots →
        ¬ thr < calculate_overlap_percent (bb a) (bb b)) →
      ∀ a b, a < b → b < n → a ∉ outerScan bb thr n pivots removed →
        b ∉ outerScan bb thr n pivots removed →
        ¬ thr < calculate_overlap_percent (bb a) (bb b) := by
  intro pivots
  induction pivots with
  | nil =>
    intro removed pre a b hab hbn ha hb
    exact pre a b hab hbn ha hb (List.not_mem_nil a)
  | cons i rest ih =>
    intro removed pre a b hab hbn ha hb
    rw [outerScan_cons] at pre ha hb
    by_cases h1 : i ∈ removed
    · rw [if_pos h1] at pre ha hb
      refine ih removed ?_ a b hab hbn ha hb
      intro a' b' hab' hbn' ha' hb' hrest
      by_cases hai : a' = i
      · subst hai
        exact absurd (outerScan_mono bb thr n rest removed a' h1) ha'
      · exact pre a' b' hab' hbn' ha' hb' (by simp [hai, hrest])
    · rw [if_neg h1] at pre ha hb
      refine ih _ ?_ a b hab hbn ha hb
      intro a' b' hab' hbn' ha' hb' hrest
      by_cases hai : a' = i
      · subst hai
        have ha'' : a' ∉ innerScan bb thr a' (List.range' (a' + 1) (n - (a' + 1))) removed :=
          fun h => ha' (outerScan_mono bb thr n rest _ a' h)
        have hb'' : b' ∉ innerScan bb thr a' (List.range' (a' + 1) (n - (a' + 1))) removed :=
          fun h => hb' (outerScan_mono bb thr n rest _ b' h)
        exact innerScan_pairs bb thr a' _ removed ha'' b' (mem_range_from.2 ⟨hab', hbn'⟩) hb''
      · exact pre a' b' hab' hbn' ha' hb' (by simp [hai, hrest])

/-- Survivor pairs of a full deduplication pass never exceed the threshold. -/
theorem regionsToRemove_pairs (l : List BBox) (thr : ℚ) :
    ∀ a b, a < b → b < l.length → a ∉ regionsToRemove l thr → b ∉ regionsToRemove l thr →
      ¬ thr < calculate_overlap_percent (bbOf l a) (bbOf l b) := by
  intro a b hab hbn ha hb
  refine outerScan_pairs (bbOf l) thr l.length (List.range l.length) [] ?_ a b hab hbn ha hb
  intro a' b' hab' hbn' _ _ hnr
  exact absurd (List.mem_range.2 (lt_trans hab' hbn')) hnr

theorem innerScan_noop (bb : ℕ → BBox) (thr : ℚ) (i : ℕ) :
    ∀ (js removed : List ℕ),
      (∀ k ∈ js, ¬ thr < calculate_overlap_percent (bb i) (bb k)) →
      innerScan bb thr i js removed = removed := by
  intro js
  induction js with
  | nil => intro removed _; rfl
  | cons j js ih =>
    intro removed h
    have hj := h j (List.mem_cons_self _ _)
    rw [innerScan_cons, if_neg hj]
    have hrest := fun k hk => h k (List.mem_cons_of_mem _ hk)
    by_cases h1 : j ∈ removed
    · rw [if_pos h1]; exact ih removed hrest
    · rw [if_neg h1]; exact ih removed hrest

theorem outerScan_noop (bb : ℕ → BBox) (thr : ℚ) (n : ℕ) :
    ∀ (pivots removed : List ℕ),
      (∀ a ∈ pivots, ∀ b, a < b → b < n → ¬ thr < calculate_overlap_percent (bb a) (bb b)) →
      outerScan bb thr n pivots removed = removed := by
  intro pivots
  induction pivots with
  | nil => intro removed _; rfl
  | cons i rest ih =>
    intro removed h
    have hinner : innerScan bb thr i (List.range' (i + 1) (n - (i + 1))) removed = removed := by
      refine innerScan_noop bb thr i _ removed ?_
      intro k hk
      rcases mem_range_from.1 hk with ⟨hik, hkn⟩
      exact h i (List.mem_cons_self _ _) k hik hkn
    rw [outerScan_cons, hinner]
    have hrest := fun a ha => h a (List.mem_cons_of_mem _ ha)
    by_cases h1 : i ∈ removed
    · rw [if_pos h1]; exact ih removed hrest
    · rw [if_neg h1]; exact ih removed hrest

/-! ### Generic list helpers -/

theorem getD_map_of_lt {α β : Type} (l : List α) (f : α → β) (p : ℕ) (hp : p < l.length)
    (d : α) (d' : β) : (l.map f).getD p d' = f (l.getD p d) := by
  simp [List.getD_eq_getElem?_getD, List.getElem?_eq_getElem, hp]

theorem getD_mem_of_lt {α : Type} (l : List α) (p : ℕ) (hp : p < l.length) (d : α) :
    l.getD p d ∈ l := by
  simp only [List.getD_eq_getElem?_getD, List.getElem?_eq_getElem hp, Option.getD_some]
  exact List.getElem_mem hp

theorem range_map_getD {α : Type} : ∀ (l : List α) (d : α),
    (List.range l.length).map (fun i => l.getD i d) = l := by
  intro l
  induction l with
  | nil => intro d; rfl
  | cons a l ih =>
    intro d
    rw [List.length_cons, List.range_succ_eq_map, List.map_cons, List.map_map]
    exact congrArg (a :: ·) (ih d)

theorem pairwise_getD_of_lt {α : Type} {r : α → α → Prop} :
    ∀ (l : List α), l.Pairwise r → ∀ (p q : ℕ) (d : α), p < q → q < l.length →
      r (l.getD p d) (l.getD q d) := by
  intro l
  induction l with
  | nil => intro _ p q d _ hq; exact absurd hq (by simp)
  | cons a l ih =>
    intro hpw p q d hpq hq
    rcases List.pairwise_cons.1 hpw with ⟨ha, hl⟩
    match p, q with
    | 0, q + 1 =>
      have hq' : q < l.length := by simpa using hq
      exact ha _ (getD_mem_of_lt l q hq' d)
    | p + 1, q + 1 =>
      have hq' : q < l.length := by simpa using hq
      exact ih hl p q d (by omega) hq'

/-! ### Survivor indices of a deduplication pass -/

def survivorIndices (l : List BBox) (thr : ℚ) : List ℕ :=
  (List.range l.length).filter (fun i => decide (i ∉ regionsToRemove l thr))

theorem filterOverlappingRegions_eq_map (l : List BBox) (thr : ℚ) :
    filterOverlappingRegions l thr = (survivorIndices l thr).map (fun i => l.getD i dummyBBox) :=
  rfl

theorem mem_survivorIndices (l : List BBox) (thr : ℚ) (a : ℕ) :
    a ∈ survivorIndices l thr ↔ a < l.length ∧ a ∉ regionsToRemove l thr := by
  simp [survivorIndices, List.mem_filter, List.mem_range]

theorem survivorIndices_sorted (l : List BBox) (thr : ℚ) :
    (survivorIndices l thr).Pairwise (· < ·) :=
  (List.pairwise_lt_range l.length).filter _

theorem survivor_pairs_le (l : List BBox) (thr : ℚ) :
    ∀ p q, p < q → q < (filterOverlappingRegions l thr).length →
      ¬ thr < calculate_overlap_percent (bbOf (filterOverlappingRegions l thr) p)
        (bbOf (filterOverlappingRegions l thr) q) := by
  intro p q hpq hq
  have hlen : (filterOverlappingRegions l thr).length = (survivorIndices l thr).length := by
    rw [filterOverlappingRegions_eq_map, List.length_map]
  rw [hlen] at hq
  have hp : p < (survivorIndices l thr).length := lt_trans hpq hq
  have hgp : bbOf (filterOverlappingRegions l thr) p = bbOf l ((survivorIndices l thr).getD p 0) := by
    show (filterOverlappingRegions l thr).getD p dummyBBox = _
    rw [filterOverlappingRegions_eq_map]
    exact getD_map_of_lt _ _ p hp 0 dummyBBox
  have hgq : bbOf (filterOverlappingRegions l thr) q = bbOf l ((survivorIndices l thr).getD q 0) := by
    show (filterOverlappingRegions l thr).getD q dummyBBox = _
    rw [filterOverlappingRegions_eq_map]
    exact getD_map_of_lt _ _ q hq 0 dummyBBox
  rw [hgp, hgq]
  have hsp := (mem_survivorIndices l thr _).1 (getD_mem_of_lt _ p hp 0)
  have hsq := (mem_survivorIndices l thr _).1 (getD_mem_of_lt _ q hq 0)
  have hlt : (survivorIndices l thr).getD p 0 < (survivorIndices l thr).getD q 0 :=
    pairwise_getD_of_lt _ (survivorIndices_sorted l thr) p q 0 hpq hq
  exact regionsToRemove_pairs l thr _ _ hlt hsq.1 hsp.2 hsq.2

theorem regionsToRemove_of_survivors_nil (l : List BBox) (thr : ℚ) :
    regionsToRemove (filterOverlappingRegions l thr) thr = [] := by
  unfold regionsToRemove
  refine outerScan_noop _ _ _ _ _ ?_
  intro a _ b hab hbn
  exact survivor_pairs_le l thr a b hab hbn

theorem filterOverlappingRegions_of_noRemovals (m : List BBox) (thr : ℚ)
    (h : regionsToRemove m thr = []) : filterOverlappingRegions m thr = m := by
  rw [filterOverlappingRegions_eq_map]
  have hfilter : survivorIndices m thr = List.range m.length := by
    unfold survivorIndices
    rw [h]
    exact List.filter_eq_self.2 (fun a _ => by simp)
  rw [hfilter]
  exact range_map_getD m dummyBBox

/-! ### Arithmetic facts about `calculate_overlap_percent` -/

theorem calculate_overlap_percent_eq_formula (b1 b2 : BBox) :
    calculate_overlap_percent b1 b2 =
      (intersectionArea b1 b2 : ℚ) / ((min b1.area b2.area : ℤ) : ℚ) * 100 := by
  unfold calculate_overlap_percent intersectionArea
  by_cases h1 : (max 0 (min b1.x_max b2.x_max - max b1.x_min b2.x_min) *
      max 0 (min b1.y_max b2.y_max - max b1.y_min b2.y_min) : ℤ) = 0
  · simp [h1]
  · by_cases h2 : (min b1.area b2.area : ℤ) = 0
    · simp [h1, h2]
    · simp [h1, h2]

theorem dedup_pair_rule (b1 b2 : BBox) (thr : ℚ)
    (hov : thr < calculate_overlap_percent b1 b2) :
    filterOverlappingRegions [b1, b2] thr = if b1.area < b2.area then [b2] else [b1] := by
  have hbb0 : bbOf [b1, b2] 0 = b1 := rfl
  have hbb1 : bbOf [b1, b2] 1 = b2 := rfl
  have hov' : thr < calculate_overlap_percent (bbOf [b1, b2] 0) (bbOf [b1, b2] 1) := hov
  by_cases harea : b1.area < b2.area
  · have harea' : (bbOf [b1, b2] 0).area < (bbOf [b1, b2] 1).area := harea
    have hR : regionsToRemove [b1, b2] thr = [0] := by
      show outerScan (bbOf [b1, b2]) thr 2 [0, 1] [] = [0]
      rw [outerScan_cons, if_neg (List.not_mem_nil 0),
        show List.range' (0 + 1) (2 - (0 + 1)) = [1] from rfl,
        innerScan_cons, if_neg (List.not_mem_nil 1), if_pos hov', if_pos harea',
        outerScan_cons, if_neg (show (1 : ℕ) ∉ [0] by simp),
        show List.range' (1 + 1) (2 - (1 + 1)) = [] from rfl,
        innerScan_nil, outerScan_nil]
    rw [if_pos harea, filterOverlappingRegions_eq_map]
    have hs : survivorIndices [b1, b2] thr = [1] := by
      unfold survivorIndices
      rw [hR]
      rfl
    rw [hs]
    rfl
  · have harea' : ¬ (bbOf [b1, b2] 0).area < (bbOf [b1, b2] 1).area := harea
    have hR : regionsToRemove [b1, b2] thr = [1] := by
      show outerScan (bbOf [b1, b2]) thr 2 [0, 1] [] = [1]
      rw [outerScan_cons, if_neg (List.not_mem_nil 0),
        show List.range' (0 + 1) (2 - (0 + 1)) = [1] from rfl,
        innerScan_cons, if_neg (List.not_mem_nil 1), if_pos hov', if_neg harea',
        innerScan_nil, outerScan_cons, if_pos (show (1 : ℕ) ∈ [1] by simp),
        outerScan_nil]
    rw [if_neg harea, filterOverlappingRegions_eq_map]
    have hs : survivorIndices [b1, b2] thr = [0] := by
      unfold survivorIndices
      rw [hR]
      rfl
    rw [hs]
    rfl

theorem contained_pair_overlap (A B : BBox)
    (hAc : A.consistentArea) (hBc : B.consistentArea)
    (hx1 : A.x_min ≤ B.x_min) (hx2 : B.x_max ≤ A.x_max)
    (hy1 : A.y_min ≤ B.y_min) (hy2 : B.y_max ≤ A.y_max)
    (hw : B.x_min < B.x_max) (hh : B.y_min < B.y_max) :
    calculate_overlap_percent A B = 100 ∧ 0 < B.area ∧ B.area ≤ A.area := by
  have hinter : intersectionArea A B = B.area := by
    unfold intersectionArea
    rw [min_eq_right hx2, max_eq_right hx1, min_eq_right hy2, max_eq_right hy1,
      max_eq_right (by omega : (0 : ℤ) ≤ B.x_max - B.x_min),
      max_eq_right (by omega : (0 : ℤ) ≤ B.y_max - B.y_min), hBc]
  have hBpos : 0 < B.area := by
    rw [hBc]
    exact mul_pos (by omega) (by omega)
  have hAB : B.area ≤ A.area := by
    rw [hAc, hBc]
    exact mul_le_mul (by omega) (by omega) (by omega) (by omega)
  refine ⟨?_, hBpos, hAB⟩
  rw [calculate_overlap_percent_eq_formula, hinter, min_eq_right hAB]
  rw [div_self (by exact_mod_cast ne_of_gt hBpos)]
  norm_num

theorem intersectionArea_eq_zero_left (b1 b2 : BBox)
    (h : b1.x_max - b1.x_min ≤ 0 ∨ b1.y_max - b1.y_min ≤ 0) :
    intersectionArea b1 b2 = 0 := by
  unfold intersectionArea
  rcases h with h | h
  · have : min b1.x_max b2.x_max - max b1.x_min b2.x_min ≤ 0 := by
      have h1 : min b1.x_max b2.x_max ≤ b1.x_max := min_le_left _ _
      have h2 : b1.x_min ≤ max b1.x_min b2.x_min := le_max_left _ _
      omega
    rw [max_eq_left this, zero_mul]
  · have : min b1.y_max b2.y_max - max b1.y_min b2.y_min ≤ 0 := by
      have h1 : min b1.y_max b2.y_max ≤ b1.y_max := min_le_left _ _
      have h2 : b1.y_min ≤ max b1.y_min b2.y_min := le_max_left _ _
      omega
    rw [max_eq_left this, mul_zero]

theorem intersectionArea_comm (b1 b2 : BBox) :
    intersectionArea b1 b2 = intersectionArea b2 b1 := by
  unfold intersectionArea
  rw [min_comm b1.x_max, max_comm b1.x_min, min_comm b1.y_max, max_comm b1.y_min]

theorem nonpos_area_dim (b : BBox) (hc : b.consistentArea) (hz : b.area ≤ 0) :
    b.x_max - b.x_min ≤ 0 ∨ b.y_max - b.y_min ≤ 0 := by
  by_contra h
  push_neg at h
  have := mul_pos (by omega : (0 : ℤ) < b.x_max - b.x_min) (by omega : (0 : ℤ) < b.y_max - b.y_min)
  rw [← hc] at this
  omega

theorem overlap_zero_of_nonpos_area (b1 b2 : BBox)
    (h : (b1.consistentArea ∧ b1.area ≤ 0) ∨ (b2.consistentArea ∧ b2.area ≤ 0)) :
    calculate_overlap_percent b1 b2 = 0 := by
  have hinter : intersectionArea b1 b2 = 0 := by
    rcases h with ⟨hc, hz⟩ | ⟨hc, hz⟩
    · exact intersectionArea_eq_zero_left b1 b2 (nonpos_area_dim b1 hc hz)
    · rw [intersectionArea_comm]
      exact intersectionArea_eq_zero_left b2 b1 (nonpos_area_dim b2 hc hz)
  rw [calculate_overlap_percent_eq_formula, hinter]
  norm_num

/-! ### Claims C1, C4, C9 -/

/-- **C1**: for every pair of candidate regions the deduplicator scores
`overlap_percent = intersection_area / min(area_i, area_j) * 100`; when the
score exceeds `overlap_allowed_percent` the smaller-area region of the pair
is removed (on an equal-area tie the second-indexed one); in particular for
two boxes with `B` contained in `A` (positive extent), the pair scores 100
and `B` is removed whenever the threshold is below 100, regardless of `A`'s
size. -/
theorem C1_overlap_dedup_smaller_area_rule :
    (∀ b1 b2 : BBox, calculate_overlap_percent b1 b2 =
        (intersectionArea b1 b2 : ℚ) / ((min b1.area b2.area : ℤ) : ℚ) * 100) ∧
    (∀ (b1 b2 : BBox) (thr : ℚ), thr < calculate_overlap_percent b1 b2 →
        filterOverlappingRegions [b1, b2] thr = if b1.area < b2.area then [b2] else [b1]) ∧
    (∀ (A B : BBox) (thr : ℚ), A.consistentArea → B.consistentArea →
        A.x_min ≤ B.x_min → B.x_max ≤ A.x_max → A.y_min ≤ B.y_min → B.y_max ≤ A.y_max →
        B.x_min < B.x_max → B.y_min < B.y_max → thr < 100 →
        calculate_overlap_percent A B = 100 ∧ filterOverlappingRegions [A, B] thr = [A]) := by
  refine ⟨calculate_overlap_percent_eq_formula, dedup_pair_rule, ?_⟩
  intro A B thr hAc hBc hx1 hx2 hy1 hy2 hw hh hthr
  obtain ⟨hov, hBpos, hAB⟩ := contained_pair_overlap A B hAc hBc hx1 hx2 hy1 hy2 hw hh
  refine ⟨hov, ?_⟩
  rw [dedup_pair_rule A B thr (by rw [hov]; exact hthr), if_neg (not_lt.2 hAB)]

unseal Rat.mul Rat.add Rat.inv in
/-- Witness for C1: a concrete contained pair. -/
theorem C1_overlap_dedup_smaller_area_rule_witness :
    calculate_overlap_percent ⟨0, 0, 100, 100, 10000⟩ ⟨10, 10, 20, 20, 100⟩ = 100 ∧
    filterOverlappingRegions [⟨0, 0, 100, 100, 10000⟩, ⟨10, 10, 20, 20, 100⟩] 50 =
      [⟨0, 0, 100, 100, 10000⟩] :=
  C1_overlap_dedup_smaller_area_rule.2.2 ⟨0, 0, 100, 100, 10000⟩ ⟨10, 10, 20, 20, 100⟩ 50
    (by decide) (by decide) (by decide) (by decide) (by decide) (by decide)
    (by decide) (by decide) (by decide)

/-- **C4**: the region deduplicator is idempotent — running the pass a
second time on the survivors removes nothing further. -/
theorem C4_dedup_idempotent (l : List BBox) (thr : ℚ) :
    filterOverlappingRegions (filterOverlappingRegions l thr) thr =
      filterOverlappingRegions l thr :=
  filterOverlappingRegions_of_noRemovals _ thr (regionsToRemove_of_survivors_nil l thr)

/-- **C9**: a malformed box of zero or negative area (its `area` field is the
product of its extents, as the pipeline builds it) always scores overlap 0,
with no division ever attempted on a zero denominator; consequently such a
region is never removed by the overlap rule. -/
theorem C9_zero_area_never_removed :
    (∀ b1 b2 : BBox, (b1.consistentArea ∧ b1.area ≤ 0) ∨ (b2.consistentArea ∧ b2.area ≤ 0) →
        calculate_overlap_percent b1 b2 = 0) ∧
    (∀ (l : List BBox) (thr : ℚ) (i : ℕ), 0 ≤ thr → i < l.length →
        (bbOf l i).consistentArea → (bbOf l i).area ≤ 0 →
        i ∉ regionsToRemove l thr ∧ bbOf l i ∈ filterOverlappingRegions l thr) := by
  refine ⟨overlap_zero_of_nonpos_area, ?_⟩
  intro l thr i hthr hi hc hz
  have hnot : i ∉ regionsToRemove l thr := by
    intro hmem
    unfold regionsToRemove at hmem
    rcases mem_of_mem_outerScan (bbOf l) thr l.length _ _ i hmem with h | ⟨a, _, b, _, _, hov, hx⟩
    · exact List.not_mem_nil i h
    · have hov0 : calculate_overlap_percent (bbOf l a) (bbOf l b) = 0 := by
        rcases hx with rfl | rfl
        · exact overlap_zero_of_nonpos_area _ _ (Or.inl ⟨hc, hz⟩)
        · exact overlap_zero_of_nonpos_area _ _ (Or.inr ⟨hc, hz⟩)
      rw [hov0] at hov
      exact absurd hov (not_lt.2 hthr)
  refine ⟨hnot, ?_⟩
  rw [filterOverlappingRegions_eq_map]
  exact List.mem_map.2 ⟨i, (mem_survivorIndices l thr i).2 ⟨hi, hnot⟩, rfl⟩

unseal Rat.mul Rat.add Rat.inv in
/-- Witness for C9: a zero-width box overlapping a normal one survives. -/
theorem C9_zero_area_never_removed_witness :
    1 ∉ regionsToRemove [⟨0, 0, 10, 10, 100⟩, ⟨5, 5, 5, 20, 0⟩] 50 ∧
    bbOf [⟨0, 0, 10, 10, 100⟩, ⟨5, 5, 5, 20, 0⟩] 1 ∈
      filterOverlappingRegions [⟨0, 0, 10, 10, 100⟩, ⟨5, 5, 5, 20, 0⟩] 50 :=
  C9_zero_area_never_removed.2 [⟨0, 0, 10, 10, 100⟩, ⟨5, 5, 5, 20, 0⟩] 50 1
    (by decide) (by decide) (by decide) (by decide)

/-! ### Letterbox transform

`app/services/MangaOCR/server.py` lines 172-191 (identical logic at
`app/webserver/process_image_mangaocr.py` lines 149-179): images smaller
than 640 in either axis are pasted centered onto a white canvas, and
detector coordinates are translated back by subtracting the padding
(lines 226-230). -/

def MIN_DIMENSION_FOR_YOLO : ℕ := 640

structure LetterboxResult where
  target_width : ℕ
  target_height : ℕ
  padding_x : ℕ
  padding_y : ℕ
deriving DecidableEq, Repr

/-- The padding computation of server.py lines 179-184: a no-op unless one
dimension is below the minimum. -/
def letterbox (w h : ℕ) : LetterboxResult :=
  if w < MIN_DIMENSION_FOR_YOLO ∨ h < MIN_DIMENSION_FOR_YOLO then
    let target_width := max w MIN_DIMENSION_FOR_YOLO
    let target_height := max h MIN_DIMENSION_FOR_YOLO
    { target_width := target_width
      target_height := target_height
      padding_x := (target_width - w) / 2
      padding_y := (target_height - h) / 2 }
  else
    { target_width := w, target_height := h, padding_x := 0, padding_y := 0 }

def whitePixel : ℕ × ℕ × ℕ := (255, 255, 255)

/-- server.py lines 186-187: `Image.new('RGB', target, (255,255,255))`
followed by `paste(image, (padding_x, padding_y))`, viewed as a pixel map. -/
def paddedImage (img : ℕ → ℕ → ℕ × ℕ × ℕ) (w h : ℕ) (x y : ℕ) : ℕ × ℕ × ℕ :=
  let lb := letterbox w h
  if lb.padding_x ≤ x ∧ x < lb.padding_x + w ∧ lb.padding_y ≤ y ∧ y < lb.padding_y + h then
    img (x - lb.padding_x) (y - lb.padding_y)
  else whitePixel

/-- **C2**: letterboxing is a no-op (zero padding, pixels unchanged) when
both dimensions are at least 640; otherwise it produces a
`max(w,640) × max(h,640)` canvas with centered offsets
`((tw-w)/2, (th-h)/2)`, pasted pixels agree with the original image
(subtracting the offsets recovers the original coordinate exactly — no
rescaling), and everything outside the pasted area is white. -/
theorem C2_letterbox_roundtrip :
    (∀ w h : ℕ, MIN_DIMENSION_FOR_YOLO ≤ w → MIN_DIMENSION_FOR_YOLO ≤ h →
      letterbox w h = ⟨w, h, 0, 0⟩ ∧
      ∀ (img : ℕ → ℕ → ℕ × ℕ × ℕ) (x y : ℕ), x < w → y < h → paddedImage img w h x y = img x y) ∧
    (∀ w h : ℕ, w < MIN_DIMENSION_FOR_YOLO ∨ h < MIN_DIMENSION_FOR_YOLO →
      letterbox w h = ⟨max w MIN_DIMENSION_FOR_YOLO, max h MIN_DIMENSION_FOR_YOLO,
        (max w MIN_DIMENSION_FOR_YOLO - w) / 2, (max h MIN_DIMENSION_FOR_YOLO - h) / 2⟩) ∧
    (∀ (w h : ℕ) (img : ℕ → ℕ → ℕ × ℕ × ℕ) (x y : ℕ), x < w → y < h →
      paddedImage img w h ((letterbox w h).padding_x + x) ((letterbox w h).padding_y + y) =
        img x y) ∧
    (∀ (w h : ℕ) (img : ℕ → ℕ → ℕ × ℕ × ℕ) (x y : ℕ),
      x < (letterbox w h).padding_x ∨ (letterbox w h).padding_x + w ≤ x ∨
        y < (letterbox w h).padding_y ∨ (letterbox w h).padding_y + h ≤ y →
      paddedImage img w h x y = whitePixel) := by
  refine ⟨?_, ?_, ?_, ?_⟩
  · intro w h hw hh
    have hlb : letterbox w h = ⟨w, h, 0, 0⟩ := by
      unfold letterbox
      rw [if_neg (by omega)]
    refine ⟨hlb, ?_⟩
    intro img x y hx hy
    unfold paddedImage
    rw [hlb]
    simp only
    rw [if_pos (by omega)]
    simp
  · intro w h hwh
    unfold letterbox
    rw [if_pos hwh]
  · intro w h img x y hx hy
    unfold paddedImage
    simp only
    rw [if_pos (by omega)]
    congr 1 <;> omega
  · intro w h img x y hout
    unfold paddedImage
    simp only
    rw [if_neg (by omega)]

/-- Witness for C2: a 640×480 image gets vertical padding 80; pixel (3,4)
round-trips; the corner of the canvas is white; a 800×700 image is
untouched. -/
theorem C2_letterbox_roundtrip_witness :
    letterbox 800 700 = ⟨800, 700, 0, 0⟩ ∧
    letterbox 640 480 = ⟨640, 640, 0, 80⟩ ∧
    paddedImage (fun x y => (x, y, 0)) 640 480 (0 + 3) (80 + 4) = (3, 4, 0) ∧
    paddedImage (fun x y => (x, y, 0)) 640 480 0 0 = whitePixel := by
  refine ⟨(C2_letterbox_roundtrip.1 800 700 (by decide) (by decide)).1, ?_, ?_, ?_⟩
  · have h := C2_letterbox_roundtrip.2.1 640 480 (by decide)
    rw [h]
    rfl
  · have h := C2_letterbox_roundtrip.2.2.1 640 480 (fun x y => (x, y, 0)) 3 4
      (by decide) (by decide)
    have hpx : (letterbox 640 480).padding_x = 0 := by decide
    have hpy : (letterbox 640 480).padding_y = 80 := by decide
    rw [hpx, hpy] at h
    exact h
  · exact C2_letterbox_roundtrip.2.2.2 640 480 (fun x y => (x, y, 0)) 0 0 (by decide)

/-! ### Color analysis: basic numeric helpers

Embedding of `app/services/shared/color_analysis.py`. Machine floats are
idealized as exact rationals; `int(round(x))` and `round(x, 1)` use
round-half-to-even as CPython does. -/

abbrev Vec3 := ℚ × ℚ × ℚ

/-- Squared Euclidean distance. The source compares distances (or norms);
comparisons of nonnegative norms agree with comparisons of their squares. -/
def distSq (a b : Vec3) : ℚ :=
  (a.1 - b.1) * (a.1 - b.1) + (a.2.1 - b.2.1) * (a.2.1 - b.2.1) +
    (a.2.2 - b.2.2) * (a.2.2 - b.2.2)

/-- CPython `round` on a float: round half to even. -/
def roundHalfEven (q : ℚ) : ℤ :=
  let f := ⌊q⌋
  let r := q - (f : ℚ)
  if r < 1 / 2 then f
  else if 1 / 2 < r then f + 1
  else if f % 2 = 0 then f else f + 1

/-- `round(x, 1)`: round to one decimal digit, half to even. -/
def round1 (q : ℚ) : ℚ := (roundHalfEven (q * 10) : ℚ) / 10

/-- `np.argmin` over a list: index of the first minimum (0 on empty input,
which the source never hits). -/
def idxMinAux : List ℚ → ℚ → ℕ → ℕ → ℕ
  | [], _, best, _ => best
  | d :: rest, bv, best, cur =>
    if d < bv then idxMinAux rest d cur (cur + 1)
    else idxMinAux rest bv best (cur + 1)

def idxOfMin : List ℚ → ℕ
  | [] => 0
  | d :: rest => idxMinAux rest d 0 1

def hexDigit (n : ℕ) : Char := if n < 10 then Char.ofNat (48 + n) else Char.ofNat (87 + n)

def byteHex (n : ℕ) : String := String.mk [hexDigit (n / 16), hexDigit (n % 16)]

/-- `"#{:02x}{:02x}{:02x}".format(*rgb_list)` for byte values. -/
def rgbHex (rgb : List ℤ) : String :=
  "#" ++ String.join (rgb.map (fun c => byteHex c.toNat))

/-- One output cluster dict of `extract_colors`
(color_analysis.py lines 290-296): keys `rgb`, `hex`, `percentage`.
`color` models the legacy `"color"` key read (but never written) by
`_choose_background_foreground` and `_format_color_entry`; the empty list
stands for an absent key. -/
structure ColorCluster where
  rgb : List ℤ
  color : List ℤ
  hex : String
  percentage : ℚ
deriving DecidableEq, Repr

def dummyCluster : ColorCluster := ⟨[], [], "", 0⟩

/-- Configuration of `_GPUColorExtractor` after `__init__` (lines 100-123).
`use_gpu` is kept as the lowered string form (the `isinstance(..., bool)`
fallback of `_should_use_gpu` is unreachable for string-configured modes);
`cupy_available` records the module-level `CUPY_AVAILABLE` flag. -/
structure ExtractorConfig where
  n_colors : ℕ
  lab_space : Bool
  preprocessing : Bool
  use_gpu : String
  edge_bias : ℚ
  max_iter : ℕ
  max_samples_gpu : ℤ
  max_samples_cpu : ℤ
  min_pixels_for_gpu : ℕ
  cupy_available : Bool
deriving Repr

/-- `__init__` clamping (lines 113-121): `n_colors ≥ 1`,
`edge_bias ∈ [0.05, 1]`, `max_iter ≥ 5`, `min_pixels_for_gpu ≥ 1`. -/
def GPUColorExtractor.mkConfig (n_colors : ℤ) (lab_space preprocessing : Bool)
    (use_gpu : String) (edge_bias : ℚ) (max_iter : ℤ)
    (max_samples_gpu max_samples_cpu : ℤ) (min_pixels_for_gpu : ℤ)
    (cupy_available : Bool) : ExtractorConfig :=
  { n_colors := (max 1 n_colors).toNat
    lab_space := lab_space
    preprocessing := preprocessing
    use_gpu := use_gpu
    edge_bias := max (1 / 20) (min edge_bias 1)
    max_iter := (max 5 max_iter).toNat
    max_samples_gpu := max_samples_gpu
    max_samples_cpu := max_samples_cpu
    min_pixels_for_gpu := (max 1 min_pixels_for_gpu).toNat
    cupy_available := cupy_available }

/-- The singleton built by `_get_color_extractor` (lines 553-579):
`n_colors=4, lab_space=True, preprocessing=False, use_gpu="auto"` with the
constructor defaults `edge_bias=0.4, max_iter=20, max_samples=150000/40000,
min_pixels_for_gpu=1500`. -/
def get_color_extractor (cupy_available : Bool) : ExtractorConfig :=
  GPUColorExtractor.mkConfig 4 true false "auto" (2 / 5) 20 150000 40000 1500 cupy_available

/-- Mutable diagnostic state of the extractor (`last_backend`, line 122). -/
structure ExtractorState where
  last_backend : String
deriving DecidableEq, Repr

/-- `_should_use_gpu` (lines 125-138). -/
def should_use_gpu (cfg : ExtractorConfig) (pixel_count : ℕ) : Bool :=
  if !cfg.cupy_available then false
  else if cfg.use_gpu = "never" then false
  else if cfg.use_gpu = "force" then true
  else if cfg.use_gpu = "auto" ∨ cfg.use_gpu = "true" ∨ cfg.use_gpu = "yes" then
    decide (cfg.min_pixels_for_gpu ≤ pixel_count)
  else false

/-- `_select_sample_indices` (lines 140-156). `rngChoice n k` models
`np.random.choice(n, k, replace=False[, p])` (both the weighted and the
uniform draw go through this oracle). -/
def select_sample_indices (cfg : ExtractorConfig) (total_pixels : ℕ) (use_gpu : Bool)
    (rngChoice : ℕ → ℕ → List ℕ) : Option (List ℕ) :=
  let limit := if use_gpu then cfg.max_samples_gpu else cfg.max_samples_cpu
  if limit ≤ 0 ∨ (total_pixels : ℤ) ≤ limit then none
  else some (rngChoice total_pixels limit.toNat)

/-- Oracle for the optional cv2 preprocessing block of `_prepare_pixels`
(lines 185-221): `present` is cv2 importability; the block runs under a
blanket `except`, so an exception can leave the weights after only the
edge step (`edge_applied`) or after both steps (`dist_applied`);
`edge_flags i` marks the `i`-th masked pixel as a mask-boundary pixel
(erosion result) and `dist i` is its `cv2.distanceTransform` value. -/
structure Cv2Oracle where
  present : Bool
  edge_applied : Bool
  edge_flags : ℕ → Bool
  dist_applied : Bool
  dist : ℕ → ℚ

/-- `_prepare_pixels` (lines 158-227): select masked pixels (row-major),
build clustering features (LAB when configured — `_rgb_to_lab_array` is
floating-point/transcendental, modelled by the `labMap` oracle), assign
edge-bias and distance-decay weights, normalize the weights to average 1. -/
def prepare_pixels (cfg : ExtractorConfig) (region : List (List Vec3))
    (mask : Option (List (List ℕ))) (labMap : List Vec3 → List Vec3)
    (cv2 : Cv2Oracle) : Option (List Vec3 × List Vec3 × List ℚ) :=
  let flatRegion := region.flatten
  let flatMask : List Bool := match mask with
    | none => flatRegion.map (fun _ => true)
    | some m => m.flatten.map (fun v => decide (0 < v))
  let pixels := ((flatRegion.zip flatMask).filter (fun p => p.2)).map (fun p => p.1)
  if pixels = [] then none
  else
    let features := if cfg.lab_space then labMap pixels else pixels
    let baseWeights := (List.range pixels.length).map (fun i =>
      (if cv2.present && mask.isSome && cv2.edge_applied && cv2.edge_flags i then
        cfg.edge_bias else 1) *
      (if cv2.present && mask.isSome && cv2.dist_applied then 1 / (1 + cv2.dist i) else 1))
    let total := baseWeights.sum
    let weights := if 0 < total then baseWeights.map (fun w => w * (pixels.length : ℚ) / total)
      else baseWeights
    some (pixels, features, weights)

/-! ### Color analysis: k-means, aggregation, and dispatch -/

def addVec (a b : Vec3) : Vec3 := (a.1 + b.1, a.2.1 + b.2.1, a.2.2 + b.2.2)

def sumVec (l : List Vec3) : Vec3 := l.foldr addVec (0, 0, 0)

def scaleVec (c : ℚ) (v : Vec3) : Vec3 := (c * v.1, c * v.2.1, c * v.2.2)

/-- Per-point nearest-centroid assignment by squared distance
(`distances.argmin(axis=1)`, lines 239-240 / 319-320 / 357-360). -/
def assignLabels (data : List Vec3) (centroids : List Vec3) : List ℕ :=
  data.map (fun p => idxOfMin (centroids.map (fun c => distSq p c)))

/-- `data[mask].mean(axis=0)` over the members of one cluster. -/
def meanVec (l : List Vec3) : Vec3 :=
  scaleVec (1 / (l.length : ℚ)) (sumVec l)

/-- The per-iteration centroid update of `_kmeans_numpy` (lines 246-251):
weighted by nothing (plain mean); an empty cluster is re-seeded from a
random data point (`rng.integers`, modelled by `reseed`). -/
def updateCentroids (data : List Vec3) (cluster_count : ℕ) (labels : List ℕ)
    (reseed : ℕ → ℕ) : List Vec3 :=
  (List.range cluster_count).map (fun idx =>
    let members := ((data.zip labels).filter (fun p => p.2 = idx)).map (fun p => p.1)
    if members = [] then data.getD (reseed idx) (0, 0, 0)
    else meanVec members)

/-- The Lloyd iteration of `_kmeans_numpy` (lines 238-251): stop when the
labels repeat or after the iteration budget. -/
def kmeansIter (data : List Vec3) (cluster_count : ℕ) (rngReseed : ℕ → ℕ → ℕ) :
    ℕ → ℕ → List Vec3 → Option (List ℕ) → List Vec3
  | 0, _, centroids, _ => centroids
  | fuel + 1, iter, centroids, prev =>
    let new_labels := assignLabels data centroids
    if prev = some new_labels then centroids
    else
      kmeansIter data cluster_count rngReseed fuel (iter + 1)
        (updateCentroids data cluster_count new_labels (rngReseed iter)) (some new_labels)

/-- `_kmeans_numpy` (lines 229-253). `rngInit` models the
`rng.choice(n, k, replace=False)` draw of initial centroid indices,
`rngReseed` the `rng.integers` re-seeding draws. -/
def kmeans_numpy (cfg : ExtractorConfig) (data : List Vec3) (cluster_count : ℕ)
    (rngInit : List ℕ) (rngReseed : ℕ → ℕ → ℕ) : List Vec3 :=
  let centroids := (List.range cluster_count).map (fun t => data.getD (rngInit.getD t 0) (0, 0, 0))
  kmeansIter data cluster_count rngReseed cfg.max_iter 0 centroids none

/-- `np.bincount(labels, weights=weights, minlength=k)` for labels `< k`
(as produced by `assignLabels` against `k` centroids). -/
def bincountWeighted (labels : List ℕ) (weights : List ℚ) (k : ℕ) : List ℚ :=
  (List.range k).map (fun c => (((labels.zip weights).filter (fun p => p.1 = c)).map
    (fun p => p.2)).sum)

/-- `np.add.at(accum, labels, pixels * weights[:, None])`. -/
def accumWeighted (pixels : List Vec3) (labels : List ℕ) (weights : List ℚ) (k : ℕ) :
    List Vec3 :=
  (List.range k).map (fun c =>
    sumVec ((((pixels.zip labels).zip weights).filter (fun p => p.1.2 = c)).map
      (fun p => scaleVec p.2 p.1.1)))

/-- Stable insertion keeping the accumulator sorted descending by `key`;
an incoming index goes after all entries with an equal or larger key. -/
def insertByDesc (key : ℕ → ℚ) (i : ℕ) : List ℕ → List ℕ
  | [] => [i]
  | j :: rest => if key j < key i then i :: j :: rest else j :: insertByDesc key i rest

/-- `np.argsort(-counts)`: indices `0..k-1` sorted by descending count,
ties in ascending index order (argsort is stable). -/
def argsortDesc (key : ℕ → ℚ) (k : ℕ) : List ℕ :=
  (List.range k).foldl (fun acc i => insertByDesc key i acc) []

/-- `np.clip(avg_rgb[idx], 0.0, 255.0)` componentwise. -/
def clampByte (q : ℚ) : ℚ := max 0 (min q 255)

/-- One emitted cluster dict (lines 282-296): `np.clip`ped weighted-mean
RGB over the `1e-8`-guarded count, rounded to integers, with the
percentage of total weight rounded to one decimal. -/
def aggregateCluster (counts : List ℚ) (accum : List Vec3) (total_weight : ℚ)
    (idx : ℕ) : ColorCluster :=
  let safe := max (counts.getD idx 0) (1 / 100000000)
  let avg := accum.getD idx (0, 0, 0)
  let rgb := [roundHalfEven (clampByte (avg.1 / safe)),
              roundHalfEven (clampByte (avg.2.1 / safe)),
              roundHalfEven (clampByte (avg.2.2 / safe))]
  { rgb := rgb, color := [], hex := rgbHex rgb
    percentage := round1 (counts.getD idx 0 / total_weight * 100) }

/-- `_aggregate_results` (lines 255-298): weighted bin counts, weighted
mean RGB with the `1e-8` safe denominator, percentages of the total
weight, clusters emitted in descending-count order, empty bins dropped,
RGB rounded to integers and percentage rounded to one decimal. -/
def aggregate_results (pixels : List Vec3) (labels : List ℕ) (cluster_count : ℕ)
    (weights : List ℚ) : List ColorCluster :=
  if cluster_count = 0 then []
  else
    let counts := bincountWeighted labels weights cluster_count
    let total_weight := counts.sum
    if total_weight ≤ 0 then []
    else
      let accum := accumWeighted pixels labels weights cluster_count
      let order := argsortDesc (fun c => counts.getD c 0) cluster_count
      order.filterMap (fun idx =>
        if counts.getD idx 0 ≤ 0 then none
        else some (aggregateCluster counts accum total_weight idx))

/-- `_extract_cpu` (lines 300-323): cap the cluster count by the sample
size, run the NumPy k-means (its `except` fallback to `sample[:k]` is
unreachable for the total embedded k-means), classify all pixels against
the sample-derived centroids, record the CPU backend, aggregate. -/
def extract_cpu (cfg : ExtractorConfig) (st : ExtractorState)
    (pixels features sample_features : List Vec3) (cluster_count : ℕ) (weights : List ℚ)
    (rngInit : List ℕ) (rngReseed : ℕ → ℕ → ℕ) : List ColorCluster × ExtractorState :=
  let cluster_count := if sample_features.length < cluster_count then sample_features.length
    else cluster_count
  if cluster_count = 0 then ([], st)
  else
    let centroids := kmeans_numpy cfg sample_features cluster_count rngInit rngReseed
    let labels := assignLabels features centroids
    (aggregate_results pixels labels cluster_count weights, { st with last_backend := "cpu" })

/-- `_extract_gpu` (lines 325-405): raises when CuPy is unavailable or the
CuPy `kmeans2` call fails (`gpuKmeans` oracle); otherwise classifies all
pixels against the centroids and aggregates with arithmetic identical to
`_aggregate_results` (the source inlines that code at lines 362-396),
recording the GPU backend on success. -/
def extract_gpu (cfg : ExtractorConfig) (st : ExtractorState)
    (pixels features sample_features : List Vec3) (cluster_count : ℕ) (weights : List ℚ)
    (gpuKmeans : Except Unit (List Vec3)) : Except Unit (List ColorCluster × ExtractorState) :=
  if !cfg.cupy_available then Except.error ()
  else
    let cluster_count := if sample_features.length < cluster_count then sample_features.length
      else cluster_count
    if cluster_count = 0 then Except.ok ([], st)
    else
      match gpuKmeans with
      | Except.error _ => Except.error ()
      | Except.ok centroids =>
        let labels := assignLabels features centroids
        let counts := bincountWeighted labels weights cluster_count
        if counts.sum ≤ 0 then Except.ok ([], st)
        else
          Except.ok (aggregate_results pixels labels cluster_count weights,
            { st with last_backend := "gpu" })

/-- `pixels.astype(np.uint8)` on byte-valued pixel data: truncation (the
region pixels are nonnegative integers, where truncation is the floor). -/
def pixelToUint8 (v : Vec3) : ℤ × ℤ × ℤ := (⌊v.1⌋, ⌊v.2.1⌋, ⌊v.2.2⌋)

/-- The oracles consumed by one `extract_colors` call: the LAB conversion
(float/transcendental), the cv2 block, the sampling RNG, the k-means RNGs,
and the CuPy `kmeans2` outcome. -/
structure ExtractOracles where
  labMap : List Vec3 → List Vec3
  cv2 : Cv2Oracle
  rngChoice : ℕ → ℕ → List ℕ
  rngInit : List ℕ
  rngReseed : ℕ → ℕ → ℕ
  gpuKmeans : Except Unit (List Vec3)

/-- Apply the optional sample-index draw to a per-pixel list (the
`pixels[sample_indices]` / `features[sample_indices]` selections at lines
426-431). -/
def samplePart (l : List Vec3) (sample_indices : Option (List ℕ)) : List Vec3 :=
  match sample_indices with
  | some idx => idx.map (fun i => l.getD i (0, 0, 0))
  | none => l

/-- Lines 433-434: `min(n_colors, number of distinct uint8 colors in the
sample)`. -/
def clusterCountOf (cfg : ExtractorConfig) (sample_pixels : List Vec3) : ℕ :=
  min cfg.n_colors ((sample_pixels.map pixelToUint8).dedup).length

/-- `extract_colors` (lines 407-457): prepare the masked pixels, pick the
backend, optionally subsample, cap the cluster count by the number of
distinct uint8 colors in the sample, then run the GPU path under
`try/except` — any GPU failure falls back to the CPU path within the same
call — or the CPU path directly. -/
def extract_colors (cfg : ExtractorConfig) (st : ExtractorState)
    (region : List (List Vec3)) (mask : Option (List (List ℕ)))
    (ω : ExtractOracles) : List ColorCluster × ExtractorState :=
  match prepare_pixels cfg region mask ω.labMap ω.cv2 with
  | none => ([], st)
  | some (pixels, features, weights) =>
    let use_gpu := should_use_gpu cfg pixels.length
    let sample_indices := select_sample_indices cfg pixels.length use_gpu ω.rngChoice
    let sample_features := samplePart features sample_indices
    let cluster_count := clusterCountOf cfg (samplePart pixels sample_indices)
    if cluster_count = 0 then ([], st)
    else if use_gpu then
      match extract_gpu cfg st pixels features sample_features cluster_count weights
          ω.gpuKmeans with
      | Except.ok r => r
      | Except.error _ =>
        extract_cpu cfg st pixels features sample_features cluster_count weights
          ω.rngInit ω.rngReseed
    else
      extract_cpu cfg st pixels features sample_features cluster_count weights
        ω.rngInit ω.rngReseed

/-! ### Background/foreground selection and the public wrapper -/

/-- `entry.get("rgb") or entry.get("color")` — Python `or` falls through on
a missing key or an empty list (both encoded as `[]`). -/
def getRgbKey (e : ColorCluster) : Option (List ℤ) :=
  if e.rgb ≠ [] then some e.rgb else if e.color ≠ [] then some e.color else none

/-- One entry of the `metrics` list of `_choose_background_foreground`
(lines 475-495). -/
structure ClusterMetric where
  idx : ℕ
  brightness : ℚ
  saturation : ℚ
  percentage : ℚ
  rgb : Vec3
deriving DecidableEq, Repr

/-- The body of the metrics loop (lines 476-495) for index `i` and entry
`e`: keep entries with a (≥3-component) RGB sequence and compute BT.709
brightness and max-minus-min saturation (the float constants
0.2126/0.7152/0.0722 idealized as exact decimals). -/
def metricFor (i : ℕ) (e : ColorCluster) : Option ClusterMetric :=
  match getRgbKey e with
  | none => none
  | some rgb =>
    if rgb.length < 3 then none
    else
      let r : ℚ := (rgb.getD 0 0 : ℤ)
      let g : ℚ := (rgb.getD 1 0 : ℤ)
      let b : ℚ := (rgb.getD 2 0 : ℤ)
      some { idx := i
             brightness := 2126 / 10000 * r + 7152 / 10000 * g + 722 / 10000 * b
             saturation := max r (max g b) - min r (min g b)
             percentage := e.percentage
             rgb := (r, g, b) }

/-- The `for idx, entry in enumerate(colors)` loop building `metrics`,
carrying the running index. -/
def metricsAux (i : ℕ) : List ColorCluster → List ClusterMetric
  | [] => []
  | e :: rest =>
    match metricFor i e with
    | some m => m :: metricsAux (i + 1) rest
    | none => metricsAux (i + 1) rest

def metricsOf (colors : List ColorCluster) : List ClusterMetric :=
  metricsAux 0 colors

/-- Head of `sorted(metrics, key=percentage, reverse=True)` (line 500):
the stable sort puts the first metric of maximal percentage first. -/
def topByPercentage : List ClusterMetric → Option ClusterMetric
  | [] => none
  | m :: rest => some (rest.foldl (fun best x => if best.percentage < x.percentage then x
      else best) m)

/-- Python `max(candidates, key=...)` with a lexicographic key: the first
maximal element wins (later equal keys do not replace). -/
def maxByFirst (key : ClusterMetric → ℚ × ℚ) : List ClusterMetric → Option ClusterMetric
  | [] => none
  | m :: rest => some (rest.foldl (fun best x =>
      if (key best).1 < (key x).1 ∨ ((key best).1 = (key x).1 ∧ (key best).2 < (key x).2) then x
      else best) m)

/-- The foreground scan of lines 532-541: over the metrics in order, track
the maximal (squared) RGB distance to the background, starting from the
sentinel `-1` with the background's own index. -/
def fgScan (bgRgb : Vec3) (bgIdx : ℕ) : List ClusterMetric → ℚ × ℕ → ℚ × ℕ
  | [], best => best
  | m :: rest, best =>
    if m.idx = bgIdx then fgScan bgRgb bgIdx rest best
    else if best.1 < distSq m.rgb bgRgb then fgScan bgRgb bgIdx rest (distSq m.rgb bgRgb, m.idx)
    else fgScan bgRgb bgIdx rest best

/-- The background choice of lines 500-524, given the top-percentage
metric: prefer a bright low-saturation sizeable cluster; otherwise keep
the top cluster unless it is dark and a markedly different-brightness
alternative exists. -/
def backgroundIdxOf (colors : List ColorCluster) (top : ClusterMetric) : ℕ :=
  let metrics := metricsOf colors
  let bright_candidates := metrics.filter (fun m =>
    decide (12 ≤ m.percentage) && decide (200 ≤ m.brightness) &&
      decide (m.saturation ≤ 45))
  match maxByFirst (fun m => (m.percentage, m.brightness)) bright_candidates with
  | some m => m.idx
  | none =>
    let alt_candidates := metrics.filter (fun m =>
      decide (m.idx ≠ top.idx) && decide (15 ≤ m.percentage) &&
        decide (60 ≤ |m.brightness - top.brightness|))
    if top.brightness < 130 then
      match maxByFirst (fun m => (m.brightness, m.percentage)) alt_candidates with
      | some m => m.idx
      | none => top.idx
    else top.idx

/-- Lines 528-531: `np.array(background.get("rgb") or background.get("color")
or [0.0, 0.0, 0.0])` (first three components; the entries this code is
applied to carry exactly three). -/
def backgroundRgbOf (colors : List ColorCluster) (background_idx : ℕ) : Vec3 :=
  match getRgbKey (colors.getD background_idx dummyCluster) with
  | some rgb => (((rgb.getD 0 0 : ℤ) : ℚ), ((rgb.getD 1 0 : ℤ) : ℚ), ((rgb.getD 2 0 : ℤ) : ℚ))
  | none => (0, 0, 0)

/-- Lines 532-547: the max-distance foreground scan plus the fix-up that
picks the first other index when no metric beat the sentinel. -/
def foregroundIdxOf (colors : List ColorCluster) (background_idx : ℕ) : ℕ :=
  let fg := fgScan (backgroundRgbOf colors background_idx) background_idx
    (metricsOf colors) (-1, background_idx)
  if fg.2 = background_idx ∧ 1 < colors.length then
    match (List.range colors.length).find? (fun i => decide (i ≠ background_idx)) with
    | some i => i
    | none => fg.2
  else fg.2

/-- `_choose_background_foreground` (lines 469-550). -/
def choose_background_foreground (colors : List ColorCluster) :
    Option ColorCluster × Option ColorCluster :=
  match colors with
  | [] => (none, none)
  | c0 :: _ =>
    match topByPercentage (metricsOf colors) with
    | none => (some c0, some c0)
    | some top =>
      let background_idx := backgroundIdxOf colors top
      (some (colors.getD background_idx dummyCluster),
       some (colors.getD (foregroundIdxOf colors background_idx) dummyCluster))

/-- The serialized form of one color (`_format_color_entry` output). -/
structure FormattedColor where
  rgb : List ℤ
  hex : Option String
  percentage : ℚ
deriving DecidableEq, Repr

/-- `_format_color_entry` (lines 582-612): clamp RGB to bytes (a BGR
`color`/`bgr` entry is swapped), keep the existing hex or recompute it,
coerce the percentage. -/
def format_color_entry (color : ColorCluster) : FormattedColor :=
  let rgb_values : List ℤ :=
    if color.rgb ≠ [] then color.rgb.map (fun c => max 0 (min 255 c))
    else if color.color ≠ [] then
      let bgr := color.color.map (fun c => max 0 (min 255 c))
      if bgr.length = 3 then [bgr.getD 2 0, bgr.getD 1 0, bgr.getD 0 0] else []
    else []
  let hex_value : Option String :=
    if color.hex ≠ "" then some color.hex
    else if rgb_values.length = 3 then some (rgbHex rgb_values) else none
  { rgb := rgb_values, hex := hex_value, percentage := color.percentage }

/-- The dict returned by `extract_foreground_background_colors`
(lines 701-705). -/
structure ColorInfo where
  background_color : FormattedColor
  foreground_color : FormattedColor
  color_source : String
deriving DecidableEq, Repr

/-- A source image: a pixel map with bounds. -/
structure RGBImage where
  width : ℕ
  height : ℕ
  pixel : ℕ → ℕ → Vec3

/-- Python `min`/`max` over a nonempty list. -/
def pyMin : List ℚ → ℚ
  | [] => 0
  | x :: xs => xs.foldl min x

def pyMax : List ℚ → ℚ
  | [] => 0
  | x :: xs => xs.foldl max x

/-- Stable insertion for `colors.sort(key=percentage, reverse=True)`. -/
def insertClusterDesc (c : ColorCluster) : List ColorCluster → List ColorCluster
  | [] => [c]
  | d :: rest => if d.percentage < c.percentage then c :: d :: rest
      else d :: insertClusterDesc c rest

def sortClustersDesc (l : List ColorCluster) : List ColorCluster :=
  l.foldl (fun acc c => insertClusterDesc c acc) []

/-- The clipped polygon bounding box of
`extract_foreground_background_colors` (lines 646-652). -/
structure RegionBox where
  min_x : ℤ
  min_y : ℤ
  max_x : ℤ
  max_y : ℤ
deriving DecidableEq, Repr

def regionBoxOf (image : RGBImage) (polygon : List (ℚ × ℚ)) : RegionBox :=
  { min_x := max ⌊pyMin (polygon.map (fun p => p.1))⌋ 0
    min_y := max ⌊pyMin (polygon.map (fun p => p.2))⌋ 0
    max_x := min ⌈pyMax (polygon.map (fun p => p.1))⌉ (image.width : ℤ)
    max_y := min ⌈pyMax (polygon.map (fun p => p.2))⌉ (image.height : ℤ) }

/-- The cropped region `rgb_image.crop((min_x, min_y, max_x, max_y))`
(line 659) as a row-major pixel grid. -/
def regionOf (image : RGBImage) (polygon : List (ℚ × ℚ)) : List (List Vec3) :=
  let bx := regionBoxOf image polygon
  (List.range (bx.max_y - bx.min_y).toNat).map (fun j =>
    (List.range (bx.max_x - bx.min_x).toNat).map (fun i =>
      image.pixel (bx.min_x.toNat + i) (bx.min_y.toNat + j)))

/-- The polygon shifted into region coordinates and clamped to the region
(lines 663-667). -/
def shiftedPolygonOf (image : RGBImage) (polygon : List (ℚ × ℚ)) : List (ℚ × ℚ) :=
  let bx := regionBoxOf image polygon
  let region_width := (bx.max_x - bx.min_x).toNat
  let region_height := (bx.max_y - bx.min_y).toNat
  polygon.map (fun p =>
    (max 0 (min ((region_width : ℚ) - 1) (p.1 - (bx.min_x : ℚ))),
     max 0 (min ((region_height : ℚ) - 1) (p.2 - (bx.min_y : ℚ)))))

/-- The rasterized polygon mask (line 668); `rasterize` is the external
`ImageDraw.Draw(...).polygon(..., fill=255)` call. -/
def maskOf (rasterize : ℕ → ℕ → List (ℚ × ℚ) → List (List ℕ))
    (image : RGBImage) (polygon : List (ℚ × ℚ)) : List (List ℕ) :=
  let bx := regionBoxOf image polygon
  rasterize (bx.max_x - bx.min_x).toNat (bx.max_y - bx.min_y).toNat
    (shiftedPolygonOf image polygon)

/-- `extract_foreground_background_colors` (lines 615-705): clip the
polygon's bounding box to the image, reject degenerate boxes, crop,
rasterize the shifted polygon into a 0/255 mask, reject masks below
`min_pixels`, run `extract_colors`, drop zero-percentage clusters, sort
descending, pick the background/foreground pair, and serialize. The
`min_contrast` parameter of the source (default 30.0) is accepted and
never read. -/
def extract_foreground_background_colors (cfg : ExtractorConfig) (st : ExtractorState)
    (image : RGBImage) (polygon : List (ℚ × ℚ))
    (rasterize : ℕ → ℕ → List (ℚ × ℚ) → List (List ℕ))
    (ω : ExtractOracles) (min_contrast : ℚ) (min_pixels : ℕ) : Option ColorInfo :=
  if polygon = [] then none
  else
    let bx := regionBoxOf image polygon
    if bx.max_x - bx.min_x ≤ 1 ∨ bx.max_y - bx.min_y ≤ 1 then none
    else
      let mask := maskOf rasterize image polygon
      if mask.flatten.sum < min_pixels * 255 then none
      else
        let colors := (extract_colors cfg st (regionOf image polygon) (some mask) ω).1
        if colors = [] then none
        else
          let colors := colors.filter (fun c => decide (c.percentage ≠ 0))
          if colors = [] then none
          else
            let colors := sortClustersDesc colors
            match choose_background_foreground colors with
            | (none, _) => none
            | (some background, fgOpt) =>
              let foreground := fgOpt.getD background
              some { background_color := format_color_entry background
                     foreground_color := format_color_entry foreground
                     color_source := "ugtlive_gpu_kmeans" }

/-- `attach_color_info` (lines 708-719), over a dict model: the target is
a key-to-value map, `color_info` an optional association list (`[]` is the
empty dict, which Python treats as falsy); `dict(...)` copies are value
copies here. -/
def lookupKey {V : Type} (k : String) : List (String × V) → Option V
  | [] => none
  | p :: rest => if p.1 = k then some p.2 else lookupKey k rest

def setKey {V : Type} (m : String → Option V) (k : String) (v : V) : String → Option V :=
  fun k' => if k' = k then some v else m k'

def attach_color_info {V : Type} (target : String → Option V)
    (color_info : Option (List (String × V))) : String → Option V :=
  match color_info with
  | none => target
  | some ci =>
    if ci.isEmpty then target
    else
      let t1 := match lookupKey "background_color" ci with
        | some v => setKey target "background_color" v
        | none => target
      let t2 := match lookupKey "foreground_color" ci with
        | some v => setKey t1 "foreground_color" v
        | none => t1
      match lookupKey "color_source" ci with
        | some v => setKey t2 "color_source" v
        | none => t2

/-! ### Claim C10: attach_color_info frame -/

/-- **C10**: `attach_color_info` changes at most the keys
`background_color`, `foreground_color` and `color_source` of the target
dict, and leaves the target entirely unchanged when `color_info` is `None`
or empty. -/
theorem C10_attach_color_info_frame :
    (∀ (V : Type) (target : String → Option V) (ci : Option (List (String × V))) (k : String),
        k ≠ "background_color" → k ≠ "foreground_color" → k ≠ "color_source" →
        attach_color_info target ci k = target k) ∧
    (∀ (V : Type) (target : String → Option V),
        attach_color_info target none = target ∧
        attach_color_info target (some []) = target) := by
  constructor
  · intro V target ci k h1 h2 h3
    match ci with
    | none => rfl
    | some l =>
      simp only [attach_color_info]
      split
      · rfl
      · rcases hb : lookupKey "background_color" l with _ | v1 <;>
          rcases hf : lookupKey "foreground_color" l with _ | v2 <;>
          rcases hs : lookupKey "color_source" l with _ | v3 <;>
          simp [hb, hf, hs, setKey, h1, h2, h3]
  · intro V target
    exact ⟨rfl, rfl⟩

/-- Witness for C10 at a concrete dict. -/
theorem C10_attach_color_info_frame_witness :
    attach_color_info (fun k => if k = "text" then some 1 else none)
      (some [("background_color", 7)]) "text" = some 1 ∧
    attach_color_info (fun k => if k = "text" then some 1 else none)
      (none : Option (List (String × ℕ))) = (fun k => if k = "text" then some 1 else none) := by
  constructor
  · have h := C10_attach_color_info_frame.1 ℕ (fun k => if k = "text" then some 1 else none)
      (some [("background_color", 7)]) "text" (by decide) (by decide) (by decide)
    rw [h]
    rfl
  · exact (C10_attach_color_info_frame.2 ℕ (fun k => if k = "text" then some 1 else none)).1

/-! ### Claim C5: degenerate-region and mask-size gates -/

theorem sum_byte_mask (l : List ℕ) (h : ∀ v ∈ l, v = 0 ∨ v = 255) :
    l.sum = 255 * (l.filter (fun v => decide (v = 255))).length := by
  induction l with
  | nil => rfl
  | cons v l ih =>
    have hv := h v (List.mem_cons_self _ _)
    have hrest := ih (fun w hw => h w (List.mem_cons_of_mem _ hw))
    rcases hv with rfl | rfl
    · simpa using hrest
    · simp only [List.sum_cons, List.filter_cons, hrest]
      norm_num [Nat.mul_succ]
      omega

/-- **C5**: `extract_foreground_background_colors` attempts no extraction —
returns `None` — whenever the clipped bounding box of the polygon is at
most one pixel wide or tall, or the rasterized mask (a 0/255 byte mask)
has fewer than `min_pixels` set pixels; for every configuration. -/
theorem C5_small_region_gates :
    (∀ cfg st image polygon rasterize ω min_contrast min_pixels,
        (regionBoxOf image polygon).max_x - (regionBoxOf image polygon).min_x ≤ 1 ∨
          (regionBoxOf image polygon).max_y - (regionBoxOf image polygon).min_y ≤ 1 →
        extract_foreground_background_colors cfg st image polygon rasterize ω min_contrast
          min_pixels = none) ∧
    (∀ cfg st image polygon rasterize ω min_contrast min_pixels,
        (∀ v ∈ (maskOf rasterize image polygon).flatten, v = 0 ∨ v = 255) →
        ((maskOf rasterize image polygon).flatten.filter (fun v => decide (v = 255))).length <
          min_pixels →
        extract_foreground_background_colors cfg st image polygon rasterize ω min_contrast
          min_pixels = none) := by
  constructor
  · intro cfg st image polygon rasterize ω min_contrast min_pixels hdeg
    by_cases hp : polygon = []
    · simp [extract_foreground_background_colors, hp]
    · simp only [extract_foreground_background_colors]
      rw [if_neg hp, if_pos hdeg]
  · intro cfg st image polygon rasterize ω min_contrast min_pixels hbytes hcount
    by_cases hp : polygon = []
    · simp [extract_foreground_background_colors, hp]
    · simp only [extract_foreground_background_colors]
      rw [if_neg hp]
      by_cases hdeg : (regionBoxOf image polygon).max_x - (regionBoxOf image polygon).min_x ≤ 1 ∨
          (regionBoxOf image polygon).max_y - (regionBoxOf image polygon).min_y ≤ 1
      · rw [if_pos hdeg]
      · rw [if_neg hdeg, if_pos ?_]
        rw [sum_byte_mask _ hbytes]
        have h255 : (0 : ℕ) < 255 := by norm_num
        calc 255 * ((maskOf rasterize image polygon).flatten.filter
              (fun v => decide (v = 255))).length
            < 255 * min_pixels := by
              exact (Nat.mul_lt_mul_left h255).2 hcount
          _ = min_pixels * 255 := Nat.mul_comm _ _

def trivialOracles : ExtractOracles :=
  { labMap := id
    cv2 := { present := false, edge_applied := false, edge_flags := fun _ => false,
             dist_applied := false, dist := fun _ => 0 }
    rngChoice := fun _ _ => []
    rngInit := []
    rngReseed := fun _ _ => 0
    gpuKmeans := Except.error () }

def whiteImage10 : RGBImage := ⟨10, 10, fun _ _ => (255, 255, 255)⟩

def zeroMaskRaster : ℕ → ℕ → List (ℚ × ℚ) → List (List ℕ) :=
  fun w h _ => List.replicate h (List.replicate w 0)

def anyConfig : ExtractorConfig :=
  GPUColorExtractor.mkConfig 4 false false "auto" (2 / 5) 20 150000 40000 1500 false

unseal Rat.mul Rat.add Rat.sub Rat.inv in
/-- Witness for C5: a 1×1 polygon box and an all-zero mask are rejected. -/
theorem C5_small_region_gates_witness :
    extract_foreground_background_colors anyConfig ⟨"cpu"⟩ whiteImage10
      [(0, 0), (1, 0), (1, 1), (0, 1)] zeroMaskRaster trivialOracles 30 15 = none ∧
    extract_foreground_background_colors anyConfig ⟨"cpu"⟩ whiteImage10
      [(0, 0), (5, 0), (5, 5), (0, 5)] zeroMaskRaster trivialOracles 30 15 = none := by
  constructor
  · exact C5_small_region_gates.1 anyConfig ⟨"cpu"⟩ whiteImage10
      [(0, 0), (1, 0), (1, 1), (0, 1)] zeroMaskRaster trivialOracles 30 15 (by decide)
  · exact C5_small_region_gates.2 anyConfig ⟨"cpu"⟩ whiteImage10
      [(0, 0), (5, 0), (5, 5), (0, 5)] zeroMaskRaster trivialOracles 30 15
      (by decide) (by decide)

/-! ### Claim C8: no adaptive-threshold fast path exists -/

/-- **C8 (amended)**: extraction never takes an adaptive-threshold fast
path — no such path exists in the code. Whatever the image, polygon, and
oracle behavior, any produced result is tagged with the clustering-path
tag `"ugtlive_gpu_kmeans"`; the `min_contrast` contrast floor (default
30.0) is never consulted. -/
theorem C8_color_source_clustering_tag (cfg : ExtractorConfig) (st : ExtractorState)
    (image : RGBImage) (polygon : List (ℚ × ℚ))
    (rasterize : ℕ → ℕ → List (ℚ × ℚ) → List (List ℕ)) (ω : ExtractOracles)
    (min_contrast : ℚ) (min_pixels : ℕ) (r : ColorInfo)
    (h : extract_foreground_background_colors cfg st image polygon rasterize ω min_contrast
      min_pixels = some r) :
    r.color_source = "ugtlive_gpu_kmeans" := by
  simp only [extract_foreground_background_colors] at h
  split at h
  · exact absurd h (by simp)
  · split at h
    · exact absurd h (by simp)
    · split at h
      · exact absurd h (by simp)
      · split at h
        · exact absurd h (by simp)
        · split at h
          · exact absurd h (by simp)
          · split at h
            · exact absurd h (by simp)
            · rw [Option.some_inj] at h
              rw [← h]

/-- A 6×6 high-contrast region: two black columns of text on white
(text/background RGB distance 255·√3, far above the 30.0 contrast floor of
the claimed adaptive-threshold strategy). -/
def c8Image : RGBImage :=
  { width := 6, height := 6
    pixel := fun x _ => if x = 2 ∨ x = 3 then ((0 : ℚ), (0 : ℚ), (0 : ℚ))
      else ((255 : ℚ), (255 : ℚ), (255 : ℚ)) }

/-- `n_colors=4` extractor on the RGB (non-LAB) configuration, CPU-only. -/
def c8Config : ExtractorConfig :=
  GPUColorExtractor.mkConfig 4 false false "auto" (2 / 5) 20 150000 40000 1500 false

def c8Oracles : ExtractOracles :=
  { labMap := id
    cv2 := { present := false, edge_applied := false, edge_flags := fun _ => false,
             dist_applied := false, dist := fun _ => 0 }
    rngChoice := fun _ _ => []
    rngInit := [0, 2]
    rngReseed := fun _ _ => 0
    gpuKmeans := Except.error () }

/-- `ImageDraw.polygon` on the full-region rectangle: every pixel masked. -/
def c8FullMask : ℕ → ℕ → List (ℚ × ℚ) → List (List ℕ) :=
  fun w h _ => List.replicate h (List.replicate w 255)

set_option maxRecDepth 10000 in
unseal Rat.mul Rat.add Rat.sub Rat.inv in
/-- Counterexample to C8 as stated: on a fully-masked high-contrast
black-on-white region the extraction does return the expected
majority-white background and minority-black foreground, but its
`color_source` is the clustering-path tag `"ugtlive_gpu_kmeans"` — not an
adaptive-threshold tag; no Strategy-A accept-and-stop happens. -/
theorem C8_adaptive_path_absent :
    extract_foreground_background_colors c8Config ⟨"cpu"⟩ c8Image
        [(0, 0), (6, 0), (6, 6), (0, 6)] c8FullMask c8Oracles 30 15 =
      some { background_color := { rgb := [255, 255, 255], hex := some "#ffffff"
                                   percentage := 667 / 10 }
             foreground_color := { rgb := [0, 0, 0], hex := some "#000000"
                                   percentage := 333 / 10 }
             color_source := "ugtlive_gpu_kmeans" } := by
  decide

set_option maxRecDepth 10000 in
unseal Rat.mul Rat.add Rat.sub Rat.inv in
/-- Witness for the amended C8 at the concrete scenario. -/
theorem C8_color_source_clustering_tag_witness :
    ColorInfo.color_source
        { background_color := { rgb := [255, 255, 255], hex := some "#ffffff"
                                percentage := 667 / 10 }
          foreground_color := { rgb := [0, 0, 0], hex := some "#000000"
                                percentage := 333 / 10 }
          color_source := "ugtlive_gpu_kmeans" } = "ugtlive_gpu_kmeans" :=
  C8_color_source_clustering_tag c8Config ⟨"cpu"⟩ c8Image
    [(0, 0), (6, 0), (6, 6), (0, 6)] c8FullMask c8Oracles 30 15 _ (by decide)

/-! ### Claim C3: GPU failures fall back to the CPU path -/

theorem should_use_gpu_cupy (cfg : ExtractorConfig) (n : ℕ)
    (h : should_use_gpu cfg n = true) : cfg.cupy_available = true := by
  by_contra hc
  have hf : cfg.cupy_available = false := by
    revert hc; cases cfg.cupy_available <;> simp
  rw [should_use_gpu, hf] at h
  simp at h

theorem extract_gpu_error (cfg : ExtractorConfig) (st : ExtractorState)
    (pixels features sample_features : List Vec3) (cluster_count : ℕ) (weights : List ℚ)
    (hcupy : cfg.cupy_available = true) (hsf : sample_features ≠ [])
    (hcc : cluster_count ≠ 0) :
    extract_gpu cfg st pixels features sample_features cluster_count weights
      (Except.error ()) = Except.error () := by
  unfold extract_gpu
  rw [hcupy]
  have hcc' : ¬ (if sample_features.length < cluster_count then sample_features.length
      else cluster_count) = 0 := by
    split
    · simpa [List.length_eq_zero] using hsf
    · exact hcc
  simp only [Bool.not_true, Bool.false_eq_true, if_false, if_neg hcc']

theorem extract_cpu_snd (cfg : ExtractorConfig) (st : ExtractorState)
    (pixels features sample_features : List Vec3) (cluster_count : ℕ) (weights : List ℚ)
    (rngInit : List ℕ) (rngReseed : ℕ → ℕ → ℕ) (hsf : sample_features ≠ [])
    (hcc : cluster_count ≠ 0) :
    (extract_cpu cfg st pixels features sample_features cluster_count weights rngInit
      rngReseed).2 = ⟨"cpu"⟩ := by
  unfold extract_cpu
  have hcc' : ¬ (if sample_features.length < cluster_count then sample_features.length
      else cluster_count) = 0 := by
    split
    · simpa [List.length_eq_zero] using hsf
    · exact hcc
  rw [if_neg hcc']

/-- **C3**: when the GPU clustering path fails (here: the CuPy `kmeans2`
call raising), `extract_colors` propagates no exception — the very same
call returns exactly the CPU path's cluster list, and the extractor's
`last_backend` field ends up `"cpu"`. -/
theorem C3_gpu_fallback_cpu (cfg : ExtractorConfig) (st : ExtractorState)
    (region : List (List Vec3)) (mask : Option (List (List ℕ))) (ω : ExtractOracles)
    (pixels features : List Vec3) (weights : List ℚ)
    (hprep : prepare_pixels cfg region mask ω.labMap ω.cv2 = some (pixels, features, weights))
    (hgpu : should_use_gpu cfg pixels.length = true)
    (hfail : ω.gpuKmeans = Except.error ())
    (hcc : clusterCountOf cfg (samplePart pixels
      (select_sample_indices cfg pixels.length true ω.rngChoice)) ≠ 0)
    (hsf : samplePart features (select_sample_indices cfg pixels.length true ω.rngChoice) ≠ []) :
    extract_colors cfg st region mask ω =
      extract_cpu cfg st pixels features
        (samplePart features (select_sample_indices cfg pixels.length true ω.rngChoice))
        (clusterCountOf cfg (samplePart pixels
          (select_sample_indices cfg pixels.length true ω.rngChoice)))
        weights ω.rngInit ω.rngReseed ∧
    (extract_colors cfg st region mask ω).2.last_backend = "cpu" := by
  have hcupy := should_use_gpu_cupy cfg pixels.length hgpu
  have h1 : extract_colors cfg st region mask ω =
      extract_cpu cfg st pixels features
        (samplePart features (select_sample_indices cfg pixels.length true ω.rngChoice))
        (clusterCountOf cfg (samplePart pixels
          (select_sample_indices cfg pixels.length true ω.rngChoice)))
        weights ω.rngInit ω.rngReseed := by
    simp only [extract_colors, hprep]
    rw [hgpu]
    rw [if_neg hcc]
    simp only [if_true]
    rw [hfail, extract_gpu_error cfg st pixels features _ _ weights hcupy hsf hcc]
  refine ⟨h1, ?_⟩
  rw [h1, extract_cpu_snd cfg st pixels features _ _ weights ω.rngInit ω.rngReseed hsf hcc]

/-- `auto` mode with CuPy present and a GPU-eligible pixel count
(`min_pixels_for_gpu` configured down to 1). -/
def c3Config : ExtractorConfig :=
  GPUColorExtractor.mkConfig 4 false false "auto" (2 / 5) 20 150000 40000 1 true

def c3Region : List (List Vec3) :=
  [[((0 : ℚ), (0 : ℚ), (0 : ℚ)), ((255 : ℚ), (255 : ℚ), (255 : ℚ))]]

def c3Oracles : ExtractOracles :=
  { labMap := id
    cv2 := { present := false, edge_applied := false, edge_flags := fun _ => false,
             dist_applied := false, dist := fun _ => 0 }
    rngChoice := fun _ _ => []
    rngInit := [0, 1]
    rngReseed := fun _ _ => 0
    gpuKmeans := Except.error () }

set_option maxRecDepth 10000 in
unseal Rat.mul Rat.add Rat.sub Rat.inv in
/-- Witness for C3: a simulated CuPy k-means failure on a GPU-eligible call
still ends with the CPU backend recorded. -/
theorem C3_gpu_fallback_cpu_witness :
    (extract_colors c3Config ⟨"gpu"⟩ c3Region none c3Oracles).2.last_backend = "cpu" :=
  (C3_gpu_fallback_cpu c3Config ⟨"gpu"⟩ c3Region none c3Oracles
    [((0 : ℚ), (0 : ℚ), (0 : ℚ)), ((255 : ℚ), (255 : ℚ), (255 : ℚ))]
    [((0 : ℚ), (0 : ℚ), (0 : ℚ)), ((255 : ℚ), (255 : ℚ), (255 : ℚ))]
    [1, 1] (by decide) (by decide) rfl (by decide) (by decide)).2

/-! ### Claim C7: foreground maximizes distance to the background -/

theorem distSq_nonneg (a b : Vec3) : 0 ≤ distSq a b := by
  unfold distSq
  have h1 := mul_self_nonneg (a.1 - b.1)
  have h2 := mul_self_nonneg (a.2.1 - b.2.1)
  have h3 := mul_self_nonneg (a.2.2 - b.2.2)
  linarith

theorem distSq_eq_zero_iff (a b : Vec3) : distSq a b = 0 ↔ a = b := by
  constructor
  · intro h
    unfold distSq at h
    have h1 := mul_self_nonneg (a.1 - b.1)
    have h2 := mul_self_nonneg (a.2.1 - b.2.1)
    have h3 := mul_self_nonneg (a.2.2 - b.2.2)
    have e1 : a.1 - b.1 = 0 := by nlinarith
    have e2 : a.2.1 - b.2.1 = 0 := by nlinarith
    have e3 : a.2.2 - b.2.2 = 0 := by nlinarith
    obtain ⟨a1, a2, a3⟩ := a
    obtain ⟨b1, b2, b3⟩ := b
    simp only at e1 e2 e3
    simp only [Prod.mk.injEq]
    refine ⟨by linarith, by linarith, by linarith⟩
  · rintro rfl
    unfold distSq
    ring

theorem metricFor_inv {i : ℕ} {e : ColorCluster} {m : ClusterMetric}
    (h : metricFor i e = some m) :
    m.idx = i ∧ m.percentage = e.percentage ∧ ∃ rgb, getRgbKey e = some rgb ∧
      ¬ rgb.length < 3 ∧
      m.rgb = (((rgb.getD 0 0 : ℤ) : ℚ), ((rgb.getD 1 0 : ℤ) : ℚ), ((rgb.getD 2 0 : ℤ) : ℚ)) := by
  unfold metricFor at h
  rcases hg : getRgbKey e with _ | rgb
  · rw [hg] at h; exact absurd h (by simp)
  · rw [hg] at h
    dsimp only at h
    by_cases hlen : rgb.length < 3
    · rw [if_pos hlen] at h; exact absurd h (by simp)
    · rw [if_neg hlen] at h
      rw [Option.some_inj] at h
      refine ⟨?_, ?_, rgb, rfl, hlen, ?_⟩ <;> rw [← h]

theorem metricsAux_mem : ∀ (l : List ColorCluster) (i : ℕ) (m : ClusterMetric),
    m ∈ metricsAux i l → i ≤ m.idx ∧ m.idx < i + l.length ∧
      metricFor m.idx (l.getD (m.idx - i) dummyCluster) = some m := by
  intro l
  induction l with
  | nil => intro i m hm; exact absurd hm (by simp [metricsAux])
  | cons e rest ih =>
    intro i m hm
    rw [metricsAux] at hm
    rcases hf : metricFor i e with _ | m0
    · rw [hf] at hm
      obtain ⟨h1, h2, h3⟩ := ih (i + 1) m hm
      have hgt : i + 1 ≤ m.idx := h1
      refine ⟨by omega, by simp only [List.length_cons]; omega, ?_⟩
      have hsub : m.idx - i = (m.idx - (i + 1)) + 1 := by omega
      rw [hsub, List.getD_cons_succ]
      exact h3
    · rw [hf] at hm
      rcases List.mem_cons.1 hm with rfl | hm'
      · have hidx := (metricFor_inv hf).1
        refine ⟨le_of_eq hidx.symm, by simp only [List.length_cons]; omega, ?_⟩
        rw [hidx, Nat.sub_self, List.getD_cons_zero]
        exact hf
      · obtain ⟨h1, h2, h3⟩ := ih (i + 1) m hm'
        refine ⟨by omega, by simp only [List.length_cons]; omega, ?_⟩
        have hsub : m.idx - i = (m.idx - (i + 1)) + 1 := by omega
        rw [hsub, List.getD_cons_succ]
        exact h3

theorem metricsOf_mem {colors : List ColorCluster} {m : ClusterMetric}
    (hm : m ∈ metricsOf colors) :
    m.idx < colors.length ∧ metricFor m.idx (colors.getD m.idx dummyCluster) = some m := by
  obtain ⟨_, h2, h3⟩ := metricsAux_mem colors 0 m hm
  rw [Nat.sub_zero] at h3
  exact ⟨by omega, h3⟩

/-- Two metrics with the same index are the same metric. -/
theorem metricsOf_idx_inj {colors : List ColorCluster} {m m' : ClusterMetric}
    (hm : m ∈ metricsOf colors) (hm' : m' ∈ metricsOf colors) (h : m.idx = m'.idx) :
    m = m' := by
  have h1 := (metricsOf_mem hm).2
  have h2 := (metricsOf_mem hm').2
  rw [h] at h1
  rw [h1] at h2
  exact Option.some_inj.1 h2

theorem metricsAux_pairwise : ∀ (l : List ColorCluster) (i : ℕ),
    (metricsAux i l).Pairwise (fun a b => a.idx < b.idx) := by
  intro l
  induction l with
  | nil => intro i; simp [metricsAux]
  | cons e rest ih =>
    intro i
    rw [metricsAux]
    rcases hf : metricFor i e with _ | m0
    · exact ih (i + 1)
    · refine List.pairwise_cons.2 ⟨?_, ih (i + 1)⟩
      intro m hm
      have hidx := (metricFor_inv hf).1
      have := (metricsAux_mem rest (i + 1) m hm).1
      omega

theorem foldl_choice_mem {α : Type} (f : α → α → α) (hf : ∀ a b, f a b = a ∨ f a b = b) :
    ∀ (l : List α) (a : α), l.foldl f a ∈ a :: l := by
  intro l
  induction l with
  | nil => intro a; simp
  | cons x l ih =>
    intro a
    rw [List.foldl_cons]
    rcases List.mem_cons.1 (ih (f a x)) with h' | h'
    · rw [h']
      rcases hf a x with he | he <;> rw [he]
      · exact List.mem_cons_self _ _
      · exact List.mem_cons_of_mem _ (List.mem_cons_self _ _)
    · exact List.mem_cons_of_mem _ (List.mem_cons_of_mem _ h')

theorem topByPercentage_mem {ms : List ClusterMetric} {t : ClusterMetric}
    (h : topByPercentage ms = some t) : t ∈ ms := by
  match ms with
  | [] => exact absurd h (by simp [topByPercentage])
  | m :: rest =>
    rw [topByPercentage, Option.some_inj] at h
    have := foldl_choice_mem (fun best x => if best.percentage < x.percentage then x else best)
      (fun a b => by dsimp only; split; exacts [Or.inr rfl, Or.inl rfl]) rest m
    rw [h] at this
    exact this

theorem maxByFirst_mem {key : ClusterMetric → ℚ × ℚ} {ms : List ClusterMetric}
    {t : ClusterMetric} (h : maxByFirst key ms = some t) : t ∈ ms := by
  match ms with
  | [] => exact absurd h (by simp [maxByFirst])
  | m :: rest =>
    rw [maxByFirst, Option.some_inj] at h
    have := foldl_choice_mem (fun best x =>
        if (key best).1 < (key x).1 ∨ ((key best).1 = (key x).1 ∧ (key best).2 < (key x).2) then x
        else best)
      (fun a b => by dsimp only; split; exacts [Or.inr rfl, Or.inl rfl]) rest m
    rw [h] at this
    exact this

/-- The chosen background index is always the index of some metric. -/
theorem backgroundIdxOf_mem (colors : List ColorCluster) (top : ClusterMetric)
    (htop : top ∈ metricsOf colors) :
    ∃ mb ∈ metricsOf colors, mb.idx = backgroundIdxOf colors top := by
  unfold backgroundIdxOf
  dsimp only
  rcases hb : maxByFirst (fun m => (m.percentage, m.brightness))
      ((metricsOf colors).filter (fun m =>
        decide (12 ≤ m.percentage) && decide (200 ≤ m.brightness) &&
          decide (m.saturation ≤ 45))) with _ | mb
  · dsimp only
    by_cases hbr : top.brightness < 130
    · rw [if_pos hbr]
      rcases ha : maxByFirst (fun m => (m.brightness, m.percentage))
          ((metricsOf colors).filter (fun m =>
            decide (m.idx ≠ top.idx) && decide (15 ≤ m.percentage) &&
              decide (60 ≤ |m.brightness - top.brightness|))) with _ | ma
      · exact ⟨top, htop, rfl⟩
      · exact ⟨ma, (List.mem_filter.1 (maxByFirst_mem ha)).1, rfl⟩
    · rw [if_neg hbr]; exact ⟨top, htop, rfl⟩
  · exact ⟨mb, (List.mem_filter.1 (maxByFirst_mem hb)).1, rfl⟩

/-- When a metric exists at the background index, the background RGB of
lines 528-531 is that metric's RGB triple. -/
theorem backgroundRgbOf_eq {colors : List ColorCluster} {mb : ClusterMetric}
    (hmb : mb ∈ metricsOf colors) :
    backgroundRgbOf colors mb.idx = mb.rgb := by
  obtain ⟨_, hfor⟩ := metricsOf_mem hmb
  obtain ⟨_, _, rgb, hkey, _, hrgb⟩ := metricFor_inv hfor
  unfold backgroundRgbOf
  rw [hkey, hrgb]

theorem fgScan_fst_mono (bgRgb : Vec3) (bgIdx : ℕ) :
    ∀ (ms : List ClusterMetric) (init : ℚ × ℕ), init.1 ≤ (fgScan bgRgb bgIdx ms init).1 := by
  intro ms
  induction ms with
  | nil => intro init; exact le_refl _
  | cons m rest ih =>
    intro init
    rw [fgScan]
    split
    · exact ih init
    · split
      · calc init.1 ≤ distSq m.rgb bgRgb := le_of_lt (by assumption)
          _ ≤ _ := ih (distSq m.rgb bgRgb, m.idx)
      · exact ih init

theorem fgScan_fst_ge (bgRgb : Vec3) (bgIdx : ℕ) :
    ∀ (ms : List ClusterMetric) (init : ℚ × ℕ), ∀ m ∈ ms, m.idx ≠ bgIdx →
      distSq m.rgb bgRgb ≤ (fgScan bgRgb bgIdx ms init).1 := by
  intro ms
  induction ms with
  | nil => intro init m hm; exact absurd hm (List.not_mem_nil m)
  | cons m' rest ih =>
    intro init m hm hne
    rw [fgScan]
    rcases List.mem_cons.1 hm with rfl | hm'
    · rw [if_neg hne]
      split
      · calc distSq m.rgb bgRgb
            ≤ (distSq m.rgb bgRgb, m.idx).1 := le_refl _
          _ ≤ _ := fgScan_fst_mono bgRgb bgIdx rest _
      · calc distSq m.rgb bgRgb ≤ init.1 := not_lt.1 (by assumption)
          _ ≤ _ := fgScan_fst_mono bgRgb bgIdx rest init
    · split
      · exact ih init m hm' hne
      · split
        · exact ih _ m hm' hne
        · exact ih init m hm' hne

theorem fgScan_cases (bgRgb : Vec3) (bgIdx : ℕ) :
    ∀ (ms : List ClusterMetric) (init : ℚ × ℕ),
      fgScan bgRgb bgIdx ms init = init ∨
      ∃ m ∈ ms, m.idx ≠ bgIdx ∧ fgScan bgRgb bgIdx ms init = (distSq m.rgb bgRgb, m.idx) := by
  intro ms
  induction ms with
  | nil => intro init; exact Or.inl rfl
  | cons m' rest ih =>
    intro init
    rw [fgScan]
    by_cases h1 : m'.idx = bgIdx
    · rw [if_pos h1]
      rcases ih init with h | ⟨m, hm, hne, he⟩
      · exact Or.inl h
      · exact Or.inr ⟨m, List.mem_cons_of_mem _ hm, hne, he⟩
    · rw [if_neg h1]
      split
      · rcases ih (distSq m'.rgb bgRgb, m'.idx) with h | ⟨m, hm, hne, he⟩
        · exact Or.inr ⟨m', List.mem_cons_self _ _, h1, h⟩
        · exact Or.inr ⟨m, List.mem_cons_of_mem _ hm, hne, he⟩
      · rcases ih init with h | ⟨m, hm, hne, he⟩
        · exact Or.inl h
        · exact Or.inr ⟨m, List.mem_cons_of_mem _ hm, hne, he⟩

/-- **C7**: with at least two valid-RGB clusters, the chosen foreground is
a cluster other than the chosen background maximizing (squared) Euclidean
RGB distance to the background color; when two clusters with positive RGB
distance exist the background and foreground entries differ; a
single-cluster input yields foreground = background. -/
theorem C7_foreground_max_distance :
    (∀ (colors : List ColorCluster) (top : ClusterMetric),
        topByPercentage (metricsOf colors) = some top →
        2 ≤ (metricsOf colors).length →
        choose_background_foreground colors =
          (some (colors.getD (backgroundIdxOf colors top) dummyCluster),
           some (colors.getD (foregroundIdxOf colors (backgroundIdxOf colors top))
             dummyCluster)) ∧
        foregroundIdxOf colors (backgroundIdxOf colors top) ≠ backgroundIdxOf colors top ∧
        (∃ mfg ∈ metricsOf colors,
          mfg.idx = foregroundIdxOf colors (backgroundIdxOf colors top) ∧
          ∀ m ∈ metricsOf colors, m.idx ≠ backgroundIdxOf colors top →
            distSq m.rgb (backgroundRgbOf colors (backgroundIdxOf colors top)) ≤
              distSq mfg.rgb (backgroundRgbOf colors (backgroundIdxOf colors top))) ∧
        ((∃ m1 ∈ metricsOf colors, ∃ m2 ∈ metricsOf colors, 0 < distSq m1.rgb m2.rgb) →
          colors.getD (foregroundIdxOf colors (backgroundIdxOf colors top)) dummyCluster ≠
            colors.getD (backgroundIdxOf colors top) dummyCluster)) ∧
    (∀ c : ColorCluster, choose_background_foreground [c] = (some c, some c)) := by
  constructor
  · intro colors top htop hlen
    have htopmem := topByPercentage_mem htop
    obtain ⟨mb, hmbmem, hmbidx⟩ := backgroundIdxOf_mem colors top htopmem
    obtain ⟨m', hm'mem, hm'ne⟩ :
        ∃ m' ∈ metricsOf colors, m'.idx ≠ backgroundIdxOf colors top := by
      rcases hms : metricsOf colors with _ | ⟨m1, rest1⟩
      · rw [hms] at hlen; simp at hlen
      · rcases hrest : rest1 with _ | ⟨m2, rest2⟩
        · rw [hms, hrest] at hlen; simp at hlen
        · have hpw : (metricsOf colors).Pairwise (fun a b => a.idx < b.idx) :=
            metricsAux_pairwise colors 0
          rw [hms, hrest] at hpw
          have h12 : m1.idx < m2.idx :=
            (List.pairwise_cons.1 hpw).1 m2 (List.mem_cons_self _ _)
          by_cases h1 : m1.idx = backgroundIdxOf colors top
          · exact ⟨m2, List.mem_cons_of_mem _ (List.mem_cons_self _ _), by omega⟩
          · exact ⟨m1, List.mem_cons_self _ _, h1⟩
    have hge := fgScan_fst_ge (backgroundRgbOf colors (backgroundIdxOf colors top))
      (backgroundIdxOf colors top) (metricsOf colors)
      (-1, backgroundIdxOf colors top) m' hm'mem hm'ne
    rcases fgScan_cases (backgroundRgbOf colors (backgroundIdxOf colors top))
        (backgroundIdxOf colors top) (metricsOf colors)
        (-1, backgroundIdxOf colors top) with hcase | ⟨mfg, hmfgmem, hmfgne, hcase⟩
    · exfalso
      rw [hcase] at hge
      have hnn := distSq_nonneg m'.rgb (backgroundRgbOf colors (backgroundIdxOf colors top))
      simp only at hge
      linarith
    · have hfi : foregroundIdxOf colors (backgroundIdxOf colors top) = mfg.idx := by
        unfold foregroundIdxOf
        rw [hcase]
        dsimp only
        rw [if_neg (fun hand => hmfgne hand.1)]
      have hchoose : choose_background_foreground colors =
          (some (colors.getD (backgroundIdxOf colors top) dummyCluster),
           some (colors.getD (foregroundIdxOf colors (backgroundIdxOf colors top))
             dummyCluster)) := by
        rcases colors with _ | ⟨c0, cs⟩
        · exact absurd htop (by simp [metricsOf, metricsAux, topByPercentage])
        · simp only [choose_background_foreground, htop]
      refine ⟨hchoose, by rw [hfi]; exact hmfgne, ⟨mfg, hmfgmem, hfi.symm, ?_⟩, ?_⟩
      · intro m hm hne
        have h := fgScan_fst_ge (backgroundRgbOf colors (backgroundIdxOf colors top))
          (backgroundIdxOf colors top) (metricsOf colors)
          (-1, backgroundIdxOf colors top) m hm hne
        rw [hcase] at h
        exact h
      · rintro ⟨p1, hp1, p2, hp2, hd⟩
        have hbg : backgroundRgbOf colors (backgroundIdxOf colors top) = mb.rgb := by
          rw [← hmbidx]
          exact backgroundRgbOf_eq hmbmem
        have hmax_pos :
            0 < distSq mfg.rgb (backgroundRgbOf colors (backgroundIdxOf colors top)) := by
          by_contra h0
          have hmax0 : distSq mfg.rgb (backgroundRgbOf colors (backgroundIdxOf colors top)) = 0 :=
            le_antisymm (not_lt.1 h0) (distSq_nonneg _ _)
          have hall : ∀ m ∈ metricsOf colors, m.rgb = mb.rgb := by
            intro m hm
            by_cases hne : m.idx = backgroundIdxOf colors top
            · have hmemb : m = mb := metricsOf_idx_inj hm hmbmem (by rw [hne, hmbidx])
              rw [hmemb]
            · have hle := fgScan_fst_ge (backgroundRgbOf colors (backgroundIdxOf colors top))
                (backgroundIdxOf colors top) (metricsOf colors)
                (-1, backgroundIdxOf colors top) m hm hne
              rw [hcase] at hle
              simp only at hle
              rw [hmax0] at hle
              have hz : distSq m.rgb (backgroundRgbOf colors (backgroundIdxOf colors top)) = 0 :=
                le_antisymm hle (distSq_nonneg _ _)
              have := (distSq_eq_zero_iff _ _).1 hz
              rw [this, hbg]
          have e1 := hall p1 hp1
          have e2 := hall p2 hp2
          rw [e1, e2, (distSq_eq_zero_iff _ _).2 rfl] at hd
          exact lt_irrefl 0 hd
        intro hEq
        obtain ⟨hfilt, hfor⟩ := metricsOf_mem hmfgmem
        obtain ⟨_, _, rgbf, hkeyf, _, hrgbf⟩ := metricFor_inv hfor
        have hbg' : backgroundRgbOf colors (backgroundIdxOf colors top) = mfg.rgb := by
          unfold backgroundRgbOf
          rw [show colors.getD (backgroundIdxOf colors top) dummyCluster =
            colors.getD (foregroundIdxOf colors (backgroundIdxOf colors top)) dummyCluster
            from hEq.symm]
          rw [hfi, hkeyf]
          dsimp only
          exact hrgbf.symm
        rw [hbg', (distSq_eq_zero_iff _ _).2 rfl] at hmax_pos
        exact lt_irrefl 0 hmax_pos
  · intro c
    rcases hm : metricsOf [c] with _ | ⟨m, mrest⟩
    · simp [choose_background_foreground, hm, topByPercentage]
    · have hrest : mrest = [] := by
        have hlen : (metricsOf [c]).length ≤ 1 := by
          rcases hf : metricFor 0 c with _ | m0 <;>
            simp [metricsOf, metricsAux, hf]
        rw [hm] at hlen
        simp only [List.length_cons] at hlen
        exact List.length_eq_zero.1 (by omega)
      subst hrest
      have hfor : metricFor 0 c = some m ∧ m.idx = 0 := by
        have h0 := metricsOf_mem (hm ▸ List.mem_cons_self m ([] : List ClusterMetric))
        have hidx : m.idx = 0 := by
          have := h0.1
          simp only [List.length_cons, List.length_nil] at this
          omega
        refine ⟨?_, hidx⟩
        have := h0.2
        rw [hidx] at this
        simpa using this
      have htop : topByPercentage (metricsOf [c]) = some m := by
        rw [hm]; rfl
      have hbi : backgroundIdxOf [c] m = 0 := by
        unfold backgroundIdxOf
        dsimp only
        rw [hm]
        rcases hb : maxByFirst (fun mm => (mm.percentage, mm.brightness))
            ([m].filter (fun mm =>
              decide (12 ≤ mm.percentage) && decide (200 ≤ mm.brightness) &&
                decide (mm.saturation ≤ 45))) with _ | mbb
        · dsimp only
          have halt : [m].filter (fun mm =>
              decide (mm.idx ≠ m.idx) && decide (15 ≤ mm.percentage) &&
                decide (60 ≤ |mm.brightness - m.brightness|)) = [] := by
            simp [List.filter]
          rw [halt]
          split
          · exact hfor.2
          · exact hfor.2
        · have hmem := maxByFirst_mem hb
          have : mbb = m := by
            rcases List.mem_filter.1 hmem with ⟨hmem', _⟩
            simpa using hmem'
          rw [this]
          exact hfor.2
      have hfi : foregroundIdxOf [c] 0 = 0 := by
        unfold foregroundIdxOf
        rw [hm]
        rw [fgScan, if_pos hfor.2, fgScan]
        dsimp only
        rw [if_neg (by simp)]
      rcases hc : choose_background_foreground [c] with ⟨bg?, fg?⟩
      rw [choose_background_foreground] at hc
      rw [htop] at hc
      dsimp only at hc
      rw [hbi, hfi] at hc
      simp only [List.getD_cons_zero] at hc
      rw [← hc]

def c7Colors : List ColorCluster :=
  [{ rgb := [255, 255, 255], color := [], hex := "#ffffff", percentage := 60 },
   { rgb := [0, 0, 0], color := [], hex := "#000000", percentage := 40 }]

def c7Top : ClusterMetric :=
  { idx := 0, brightness := 255, saturation := 0, percentage := 60, rgb := (255, 255, 255) }

unseal Rat.mul Rat.add Rat.sub Rat.inv in
/-- Witness for C7: a white-majority/black-minority pair separates. -/
theorem C7_foreground_max_distance_witness :
    c7Colors.getD (foregroundIdxOf c7Colors (backgroundIdxOf c7Colors c7Top)) dummyCluster ≠
      c7Colors.getD (backgroundIdxOf c7Colors c7Top) dummyCluster :=
  (C7_foreground_max_distance.1 c7Colors c7Top (by decide) (by decide)).2.2.2 (by decide)

/-! ### Claim C6: rounding and ordering facts -/

theorem roundHalfEven_le (q : ℚ) : (roundHalfEven q : ℚ) ≤ q + 1 / 2 := by
  unfold roundHalfEven
  dsimp only
  have hfl := Int.floor_le q
  have hfu := Int.lt_floor_add_one q
  split
  · linarith
  · split
    · push_cast
      linarith
    · split
      · linarith
      · push_cast
        have : ¬ (1 : ℚ) / 2 < q - (⌊q⌋ : ℚ) := by assumption
        linarith [not_lt.1 this]

theorem roundHalfEven_ge (q : ℚ) : q - 1 / 2 ≤ (roundHalfEven q : ℚ) := by
  unfold roundHalfEven
  dsimp only
  have hfl := Int.floor_le q
  have hfu := Int.lt_floor_add_one q
  split
  · have : q - (⌊q⌋ : ℚ) < 1 / 2 := by assumption
    linarith
  · split
    · push_cast
      linarith
    · split
      · have : ¬ q - (⌊q⌋ : ℚ) < 1 / 2 := by assumption
        linarith [not_lt.1 this]
      · push_cast
        linarith

theorem roundHalfEven_floor_le (q : ℚ) : ⌊q⌋ ≤ roundHalfEven q := by
  unfold roundHalfEven
  dsimp only
  split
  · exact le_refl _
  · split
    · omega
    · split
      · exact le_refl _
      · omega

theorem roundHalfEven_le_floor_add_one (q : ℚ) : roundHalfEven q ≤ ⌊q⌋ + 1 := by
  unfold roundHalfEven
  dsimp only
  split
  · omega
  · split
    · omega
    · split
      · omega
      · omega

theorem roundHalfEven_mono {x y : ℚ} (h : x ≤ y) : roundHalfEven x ≤ roundHalfEven y := by
  have hf : ⌊x⌋ ≤ ⌊y⌋ := Int.floor_le_floor h
  rcases lt_or_eq_of_le hf with hlt | heq
  · calc roundHalfEven x ≤ ⌊x⌋ + 1 := roundHalfEven_le_floor_add_one x
      _ ≤ ⌊y⌋ := by omega
      _ ≤ roundHalfEven y := roundHalfEven_floor_le y
  · unfold roundHalfEven
    rw [← heq]
    dsimp only
    have hr : x - (⌊x⌋ : ℚ) ≤ y - (⌊x⌋ : ℚ) := by linarith
    split_ifs <;> first | omega | linarith

theorem round1_le (q : ℚ) : round1 q ≤ q + 1 / 20 := by
  unfold round1
  have h := roundHalfEven_le (q * 10)
  linarith

theorem round1_ge (q : ℚ) : q - 1 / 20 ≤ round1 q := by
  unfold round1
  have h := roundHalfEven_ge (q * 10)
  linarith

theorem round1_mono {x y : ℚ} (h : x ≤ y) : round1 x ≤ round1 y := by
  unfold round1
  have h10 : x * 10 ≤ y * 10 := by linarith
  have := roundHalfEven_mono h10
  have hc : (roundHalfEven (x * 10) : ℚ) ≤ (roundHalfEven (y * 10) : ℚ) := by exact_mod_cast this
  linarith

/-! ### Claim C6: argsort and bincount facts -/

theorem insertByDesc_perm (key : ℕ → ℚ) (i : ℕ) :
    ∀ l : List ℕ, (insertByDesc key i l).Perm (i :: l) := by
  intro l
  induction l with
  | nil => exact List.Perm.refl _
  | cons j rest ih =>
    rw [insertByDesc]
    split
    · exact List.Perm.refl _
    · exact (ih.cons j).trans (List.Perm.swap i j rest)

theorem foldl_insertByDesc_perm (key : ℕ → ℚ) :
    ∀ (xs acc : List ℕ), (xs.foldl (fun a i => insertByDesc key i a) acc).Perm (acc ++ xs) := by
  intro xs
  induction xs with
  | nil => intro acc; simp
  | cons x xs ih =>
    intro acc
    rw [List.foldl_cons]
    have h1 := ih (insertByDesc key x acc)
    have h2 : (insertByDesc key x acc ++ xs).Perm (acc ++ x :: xs) :=
      (((insertByDesc_perm key x acc).append_right xs).trans (List.perm_middle).symm)
    exact h1.trans h2

theorem argsortDesc_perm (key : ℕ → ℚ) (k : ℕ) :
    (argsortDesc key k).Perm (List.range k) := by
  have h := foldl_insertByDesc_perm key (List.range k) []
  exact h

theorem insertByDesc_sorted (key : ℕ → ℚ) (i : ℕ) :
    ∀ l : List ℕ, l.Pairwise (fun a b => key b ≤ key a) →
      (insertByDesc key i l).Pairwise (fun a b => key b ≤ key a) := by
  intro l
  induction l with
  | nil => intro _; exact List.pairwise_singleton _ _
  | cons j rest ih =>
    intro hpw
    rcases List.pairwise_cons.1 hpw with ⟨hj, hrest⟩
    rw [insertByDesc]
    split
    · refine List.pairwise_cons.2 ⟨?_, hpw⟩
      intro b hb
      rcases List.mem_cons.1 hb with rfl | hb'
      · exact le_of_lt (by assumption)
      · exact le_trans (hj b hb') (le_of_lt (by assumption))
    · refine List.pairwise_cons.2 ⟨?_, ih hrest⟩
      intro b hb
      rcases List.mem_cons.1 ((insertByDesc_perm key i rest).mem_iff.1 hb) with h | h
      · subst h
        exact not_lt.1 (by assumption)
      · exact hj b h

theorem argsortDesc_sorted (key : ℕ → ℚ) (k : ℕ) :
    (argsortDesc key k).Pairwise (fun a b => key b ≤ key a) := by
  unfold argsortDesc
  suffices h : ∀ (xs acc : List ℕ), acc.Pairwise (fun a b => key b ≤ key a) →
      (xs.foldl (fun a i => insertByDesc key i a) acc).Pairwise (fun a b => key b ≤ key a) by
    exact h (List.range k) [] (by simp)
  intro xs
  induction xs with
  | nil => intro acc h; simpa using h
  | cons x xs ih =>
    intro acc h
    rw [List.foldl_cons]
    exact ih _ (insertByDesc_sorted key x acc h)

def sumPercent (l : List ColorCluster) : ℚ := (l.map (fun c => c.percentage)).sum

/-- The two observable ordering/total facts about a returned cluster list:
weakly descending percentages, and (when nonempty) a percentage total of
100 up to the one-decimal rounding of each entry. -/
def listInvariants (l : List ColorCluster) : Prop :=
  (l.map (fun c => c.percentage)).Pairwise (fun a b => b ≤ a) ∧
  (l ≠ [] → 100 - l.length * (1 / 20) ≤ sumPercent l ∧
    sumPercent l ≤ 100 + l.length * (1 / 20))

theorem listInvariants_nil : listInvariants [] := by
  constructor
  · simp
  · intro h; exact absurd rfl h

theorem bincountWeighted_length (labels : List ℕ) (weights : List ℚ) (k : ℕ) :
    (bincountWeighted labels weights k).length = k := by
  simp [bincountWeighted]

theorem bincountWeighted_getD_nonneg (labels : List ℕ) (weights : List ℚ) (k : ℕ)
    (hw : ∀ w ∈ weights, 0 ≤ w) :
    ∀ idx, 0 ≤ (bincountWeighted labels weights k).getD idx 0 := by
  intro idx
  by_cases hidx : idx < (bincountWeighted labels weights k).length
  · have hmem := getD_mem_of_lt _ idx hidx (0 : ℚ)
    set v := (bincountWeighted labels weights k).getD idx 0 with hv
    simp only [bincountWeighted, List.mem_map] at hmem
    obtain ⟨c, _, hc⟩ := hmem
    rw [← hc]
    apply List.sum_nonneg
    intro x hx
    simp only [List.mem_map, List.mem_filter] at hx
    obtain ⟨⟨a, b⟩, ⟨hp, _⟩, rfl⟩ := hx
    exact hw b (List.of_mem_zip hp).2
  · rw [List.getD_eq_getElem?_getD, List.getElem?_eq_none (by omega)]
    exact le_refl 0

theorem sum_div_mul_hundred (l : List ℚ) (T : ℚ) :
    (l.map (fun x => x / T * 100)).sum = l.sum / T * 100 := by
  induction l with
  | nil => simp
  | cons x l ih =>
    simp only [List.map_cons, List.sum_cons, ih]
    ring

/-- Summing the rounded percentages over the kept (positive-count) bins
stays within one rounding step per kept bin of the unrounded total. -/
theorem sum_percent_filterMap (countOf p : ℕ → ℚ) (g : ℕ → ColorCluster)
    (hzero : ∀ idx, countOf idx ≤ 0 → p idx = 0)
    (hg : ∀ idx, (g idx).percentage = round1 (p idx)) :
    ∀ os : List ℕ,
      (os.map p).sum -
          (os.filterMap (fun idx => if countOf idx ≤ 0 then none else some (g idx))).length *
            (1 / 20) ≤
        sumPercent (os.filterMap (fun idx => if countOf idx ≤ 0 then none else some (g idx))) ∧
      sumPercent (os.filterMap (fun idx => if countOf idx ≤ 0 then none else some (g idx))) ≤
        (os.map p).sum +
          (os.filterMap (fun idx => if countOf idx ≤ 0 then none else some (g idx))).length *
            (1 / 20) := by
  intro os
  induction os with
  | nil => simp [sumPercent]
  | cons idx os ih =>
    by_cases hc : countOf idx ≤ 0
    · have hz := hzero idx hc
      simp only [List.map_cons, List.sum_cons, List.filterMap_cons, if_pos hc, hz]
      constructor
      · linarith [ih.1]
      · linarith [ih.2]
    · have h1 := round1_ge (p idx)
      have h2 := round1_le (p idx)
      simp only [List.map_cons, List.sum_cons, List.filterMap_cons, if_neg hc,
        List.length_cons, sumPercent, List.map_cons, List.sum_cons, hg idx]
      have ihl := ih.1
      have ihr := ih.2
      simp only [sumPercent] at ihl ihr
      constructor
      · push_cast
        linarith
      · push_cast
        linarith

theorem aggregate_results_invariants (pixels : List Vec3) (labels : List ℕ) (k : ℕ)
    (weights : List ℚ) (hw : ∀ w ∈ weights, 0 ≤ w) :
    (∀ c ∈ aggregate_results pixels labels k weights,
        ∃ idx, idx < k ∧ 0 < (bincountWeighted labels weights k).getD idx 0 ∧
          c.percentage = round1 ((bincountWeighted labels weights k).getD idx 0 /
            (bincountWeighted labels weights k).sum * 100)) ∧
    listInvariants (aggregate_results pixels labels k weights) := by
  by_cases hk : k = 0
  · unfold aggregate_results
    rw [if_pos hk]
    exact ⟨by simp, listInvariants_nil⟩
  · unfold aggregate_results
    rw [if_neg hk]
    dsimp only
    by_cases ht : (bincountWeighted labels weights k).sum ≤ 0
    · rw [if_pos ht]
      exact ⟨by simp, listInvariants_nil⟩
    · rw [if_neg ht]
      have htpos : 0 < (bincountWeighted labels weights k).sum := not_le.1 ht
      have htne : (bincountWeighted labels weights k).sum ≠ 0 := ne_of_gt htpos
      have hnn := bincountWeighted_getD_nonneg labels weights k hw
      have hzero : ∀ idx, (bincountWeighted labels weights k).getD idx 0 ≤ 0 →
          (bincountWeighted labels weights k).getD idx 0 /
            (bincountWeighted labels weights k).sum * 100 = 0 := by
        intro idx hidx
        have : (bincountWeighted labels weights k).getD idx 0 = 0 :=
          le_antisymm hidx (hnn idx)
        rw [this, zero_div, zero_mul]
      have hsum100 : ((argsortDesc (fun c => (bincountWeighted labels weights k).getD c 0)
          k).map (fun c => (bincountWeighted labels weights k).getD c 0 /
            (bincountWeighted labels weights k).sum * 100)).sum = 100 := by
        have hperm := (argsortDesc_perm
          (fun c => (bincountWeighted labels weights k).getD c 0) k).map
          (fun c => (bincountWeighted labels weights k).getD c 0 /
            (bincountWeighted labels weights k).sum * 100)
        rw [hperm.sum_eq]
        have hcomp : (List.range k).map (fun c => (bincountWeighted labels weights k).getD c 0 /
            (bincountWeighted labels weights k).sum * 100) =
            ((List.range k).map (fun c => (bincountWeighted labels weights k).getD c 0)).map
              (fun x => x / (bincountWeighted labels weights k).sum * 100) := by
          rw [List.map_map]
          rfl
        rw [hcomp]
        have hrange : (List.range k).map
            (fun c => (bincountWeighted labels weights k).getD c 0) =
            bincountWeighted labels weights k := by
          have := range_map_getD (bincountWeighted labels weights k) (0 : ℚ)
          rw [bincountWeighted_length] at this
          exact this
        rw [hrange, sum_div_mul_hundred, div_self htne, one_mul]
      constructor
      · intro c hc
        rcases List.mem_filterMap.1 hc with ⟨idx, hidx, hf⟩
        have hidxk : idx < k := by
          have := (argsortDesc_perm (fun c => (bincountWeighted labels weights k).getD c 0)
            k).mem_iff.1 hidx
          exact List.mem_range.1 this
        by_cases hc0 : (bincountWeighted labels weights k).getD idx 0 ≤ 0
        · rw [if_pos hc0] at hf
          exact absurd hf (by simp)
        · rw [if_neg hc0] at hf
          rw [Option.some_inj] at hf
          exact ⟨idx, hidxk, not_le.1 hc0, by rw [← hf]; rfl⟩
      · constructor
        · rw [List.pairwise_map]
          refine List.Pairwise.filterMap _ ?_
            (argsortDesc_sorted (fun c => (bincountWeighted labels weights k).getD c 0) k)
          intro a a' hle b hb b' hb'
          by_cases ha : (bincountWeighted labels weights k).getD a 0 ≤ 0
          · rw [if_pos ha] at hb
            exact absurd hb (by simp)
          · by_cases ha' : (bincountWeighted labels weights k).getD a' 0 ≤ 0
            · rw [if_pos ha'] at hb'
              exact absurd hb' (by simp)
            · rw [if_neg ha, Option.mem_def, Option.some_inj] at hb
              rw [if_neg ha', Option.mem_def, Option.some_inj] at hb'
              rw [← hb, ← hb']
              show round1 _ ≤ round1 _
              apply round1_mono
              have hdivle : (bincountWeighted labels weights k).getD a' 0 /
                  (bincountWeighted labels weights k).sum ≤
                  (bincountWeighted labels weights k).getD a 0 /
                  (bincountWeighted labels weights k).sum := by
                exact div_le_div_of_nonneg_right hle htpos.le
              exact mul_le_mul_of_nonneg_right hdivle (by norm_num)
        · intro hne
          have hb := sum_percent_filterMap
            (fun c => (bincountWeighted labels weights k).getD c 0)
            (fun c => (bincountWeighted labels weights k).getD c 0 /
              (bincountWeighted labels weights k).sum * 100)
            (aggregateCluster (bincountWeighted labels weights k)
              (accumWeighted pixels labels weights k) (bincountWeighted labels weights k).sum)
            hzero (fun idx => rfl)
            (argsortDesc (fun c => (bincountWeighted labels weights k).getD c 0) k)
          rw [hsum100] at hb
          exact hb

/-- One base weight of `_prepare_pixels` (edge-bias factor times
distance-decay factor) is nonnegative when the configured edge bias is
nonnegative and every distance-transform value is at least −1. -/
theorem base_weight_nonneg (cfg : ExtractorConfig) (cv2 : Cv2Oracle) (b : Bool) (i : ℕ)
    (hedge : 0 ≤ cfg.edge_bias) (hdist : ∀ j, -1 ≤ cv2.dist j) :
    0 ≤ (if cv2.present && b && cv2.edge_applied && cv2.edge_flags i then cfg.edge_bias
          else 1) *
        (if cv2.present && b && cv2.dist_applied then 1 / (1 + cv2.dist i) else 1) := by
  apply mul_nonneg
  · split
    · exact hedge
    · norm_num
  · split
    · rw [one_div]
      apply inv_nonneg.2
      linarith [hdist i]
    · norm_num

/-- The average-1 normalization step of `_prepare_pixels` preserves weight
nonnegativity. -/
theorem normalized_weights_nonneg (base : List ℚ) (n : ℕ) (hbase : ∀ w ∈ base, 0 ≤ w)
    (w : ℚ)
    (hw : w ∈ if 0 < base.sum then base.map (fun x => x * (n : ℚ) / base.sum) else base) :
    0 ≤ w := by
  split at hw
  case isTrue hpos =>
    rcases List.mem_map.1 hw with ⟨x, hx, rfl⟩
    exact div_nonneg (mul_nonneg (hbase x hx) (by positivity)) hpos.le
  case isFalse _ => exact hbase w hw

/-- Every weight produced by `_prepare_pixels` is nonnegative, given a
nonnegative edge bias and distance-transform values at least −1 (the real
`cv2.distanceTransform` is nonnegative, and the default `edge_bias` 0.4 is
clamped to `[0.05, 1]`). -/
theorem prepare_pixels_weights_nonneg (cfg : ExtractorConfig) (region : List (List Vec3))
    (mask : Option (List (List ℕ))) (labMap : List Vec3 → List Vec3) (cv2 : Cv2Oracle)
    (pixels features : List Vec3) (weights : List ℚ)
    (hedge : 0 ≤ cfg.edge_bias) (hdist : ∀ i, -1 ≤ cv2.dist i)
    (h : prepare_pixels cfg region mask labMap cv2 = some (pixels, features, weights)) :
    ∀ w ∈ weights, 0 ≤ w := by
  unfold prepare_pixels at h
  dsimp only at h
  split at h
  · exact absurd h (by simp)
  · rw [Option.some_inj] at h
    have hw : weights = _ := (congrArg (fun t => t.2.2) h).symm
    intro w hwmem
    rw [hw] at hwmem
    refine normalized_weights_nonneg _ _ ?_ w hwmem
    intro x hx
    rcases List.mem_map.1 hx with ⟨i, _, rfl⟩
    exact base_weight_nonneg cfg cv2 mask.isSome i hedge hdist

/-- The CPU path's cluster list is empty or an `_aggregate_results` value
over the masked pixels and prepared weights. -/
theorem extract_cpu_fst_shape (cfg : ExtractorConfig) (st : ExtractorState)
    (pixels features sample_features : List Vec3) (cluster_count : ℕ) (weights : List ℚ)
    (rngInit : List ℕ) (rngReseed : ℕ → ℕ → ℕ) :
    (extract_cpu cfg st pixels features sample_features cluster_count weights rngInit
      rngReseed).1 = [] ∨
    ∃ labels k, (extract_cpu cfg st pixels features sample_features cluster_count weights
      rngInit rngReseed).1 = aggregate_results pixels labels k weights := by
  unfold extract_cpu
  dsimp only
  by_cases hc : (if sample_features.length < cluster_count then sample_features.length
      else cluster_count) = 0
  · rw [if_pos hc]
    left
    rfl
  · rw [if_neg hc]
    right
    exact ⟨_, _, rfl⟩

/-- A successful GPU path returns an empty cluster list or an
`_aggregate_results` value over the masked pixels and prepared weights. -/
theorem extract_gpu_fst_shape (cfg : ExtractorConfig) (st : ExtractorState)
    (pixels features sample_features : List Vec3) (cluster_count : ℕ) (weights : List ℚ)
    (gpuKmeans : Except Unit (List Vec3)) (r : List ColorCluster × ExtractorState)
    (h : extract_gpu cfg st pixels features sample_features cluster_count weights gpuKmeans =
      Except.ok r) :
    r.1 = [] ∨ ∃ labels k, r.1 = aggregate_results pixels labels k weights := by
  unfold extract_gpu at h
  dsimp only at h
  split at h
  · exact absurd h (by simp)
  · split at h
    · split at h
      · injection h with h
        left
        rw [← h]
      · split at h
        · exact absurd h (by simp)
        · split at h
          · injection h with h
            left
            rw [← h]
          · injection h with h
            right
            exact ⟨_, _, by rw [← h]⟩
    · split at h
      · injection h with h
        left
        rw [← h]
      · split at h
        · exact absurd h (by simp)
        · split at h
          · injection h with h
            left
            rw [← h]
          · injection h with h
            right
            exact ⟨_, _, by rw [← h]⟩

/-- Every `extract_colors` result list is empty or an `_aggregate_results`
value over the pixels and weights produced by `_prepare_pixels`. -/
theorem extract_colors_fst_shape (cfg : ExtractorConfig) (st : ExtractorState)
    (region : List (List Vec3)) (mask : Option (List (List ℕ))) (ω : ExtractOracles) :
    (extract_colors cfg st region mask ω).1 = [] ∨
    ∃ pixels features weights labels k,
      prepare_pixels cfg region mask ω.labMap ω.cv2 = some (pixels, features, weights) ∧
      (extract_colors cfg st region mask ω).1 = aggregate_results pixels labels k weights := by
  rcases hp : prepare_pixels cfg region mask ω.labMap ω.cv2 with _ | ⟨pixels, features, weights⟩
  · left
    unfold extract_colors
    rw [hp]
  · unfold extract_colors
    rw [hp]
    dsimp only
    by_cases hcc : clusterCountOf cfg (samplePart pixels (select_sample_indices cfg
        pixels.length (should_use_gpu cfg pixels.length) ω.rngChoice)) = 0
    · rw [if_pos hcc]
      left
      rfl
    · rw [if_neg hcc]
      by_cases hgpu : should_use_gpu cfg pixels.length = true
      · rw [if_pos hgpu]
        rcases hg : extract_gpu cfg st pixels features (samplePart features
            (select_sample_indices cfg pixels.length (should_use_gpu cfg pixels.length)
              ω.rngChoice))
            (clusterCountOf cfg (samplePart pixels (select_sample_indices cfg pixels.length
              (should_use_gpu cfg pixels.length) ω.rngChoice))) weights ω.gpuKmeans
            with e | r
        · dsimp only
          rcases extract_cpu_fst_shape cfg st pixels features _ _ weights ω.rngInit
              ω.rngReseed with hnil | ⟨labels, k, heq⟩
          · left
            exact hnil
          · right
            exact ⟨pixels, features, weights, labels, k, rfl, heq⟩
        · dsimp only
          rcases extract_gpu_fst_shape cfg st pixels features _ _ weights ω.gpuKmeans r hg
              with hnil | ⟨labels, k, heq⟩
          · left
            exact hnil
          · right
            exact ⟨pixels, features, weights, labels, k, rfl, heq⟩
      · rw [if_neg hgpu]
        rcases extract_cpu_fst_shape cfg st pixels features _ _ weights ω.rngInit
            ω.rngReseed with hnil | ⟨labels, k, heq⟩
        · left
          exact hnil
        · right
          exact ⟨pixels, features, weights, labels, k, rfl, heq⟩

/-- The 16-pixel single-row region of the concrete C6 evaluation: three
black, three white, three red and seven blue pixels. -/
def c6Row : List Vec3 :=
  List.replicate 3 ((0 : ℚ), (0 : ℚ), (0 : ℚ)) ++
  List.replicate 3 ((255 : ℚ), (255 : ℚ), (255 : ℚ)) ++
  List.replicate 3 ((255 : ℚ), (0 : ℚ), (0 : ℚ)) ++
  List.replicate 7 ((0 : ℚ), (0 : ℚ), (255 : ℚ))

/-- Constructor-default configuration (`lab_space=False` so the feature
space is exact), CuPy absent, so the CPU path runs. -/
def c6Config : ExtractorConfig :=
  GPUColorExtractor.mkConfig 4 false false "auto" (2 / 5) 20 150000 40000 1500 false

/-- Oracles for the C6 evaluation: no cv2 weighting, `rng.choice` initial
centroids at the four distinct colors (indices 0, 3, 6, 9). -/
def c6Oracles : ExtractOracles :=
  { labMap := id
    cv2 := { present := false, edge_applied := false, edge_flags := fun _ => false,
             dist_applied := false, dist := fun _ => 0 }
    rngChoice := fun _ _ => []
    rngInit := [0, 3, 6, 9]
    rngReseed := fun _ _ => 0
    gpuKmeans := Except.error () }

/-- **C6** (amended): every cluster list returned by `extract_colors` has
weakly descending percentages and a rounded percentage total within one
rounding step (0.05) per returned cluster of 100, and the list is empty or
an `_aggregate_results` value in which every returned cluster comes from a
bin of strictly positive weighted count and carries the one-decimal
rounding of that bin's share of the total weight. The hypotheses state
that the configured edge bias is nonnegative and the distance-transform
oracle is bounded below by −1, both true of the real inputs. -/
theorem C6_cluster_list_invariants (cfg : ExtractorConfig) (st : ExtractorState)
    (region : List (List Vec3)) (mask : Option (List (List ℕ))) (ω : ExtractOracles)
    (hedge : 0 ≤ cfg.edge_bias) (hdist : ∀ i, -1 ≤ ω.cv2.dist i) :
    listInvariants (extract_colors cfg st region mask ω).1 ∧
    ((extract_colors cfg st region mask ω).1 = [] ∨
      ∃ pixels labels k weights,
        (∀ w ∈ weights, 0 ≤ w) ∧
        (extract_colors cfg st region mask ω).1 = aggregate_results pixels labels k weights ∧
        ∀ c ∈ (extract_colors cfg st region mask ω).1,
          ∃ idx, idx < k ∧ 0 < (bincountWeighted labels weights k).getD idx 0 ∧
            c.percentage = round1 ((bincountWeighted labels weights k).getD idx 0 /
              (bincountWeighted labels weights k).sum * 100)) := by
  rcases extract_colors_fst_shape cfg st region mask ω with hnil |
    ⟨pixels, features, weights, labels, k, hp, heq⟩
  · rw [hnil]
    exact ⟨listInvariants_nil, Or.inl rfl⟩
  · have hw := prepare_pixels_weights_nonneg cfg region mask ω.labMap ω.cv2 pixels features
      weights hedge hdist hp
    have hinv := aggregate_results_invariants pixels labels k weights hw
    rw [heq]
    refine ⟨hinv.2, Or.inr ⟨pixels, labels, k, weights, hw, rfl, ?_⟩⟩
    exact hinv.1

theorem C6_cluster_list_invariants_witness :
    (0 ≤ c6Config.edge_bias ∧ ∀ i, (-1 : ℚ) ≤ c6Oracles.cv2.dist i) ∧
    (listInvariants (extract_colors c6Config ⟨"cpu"⟩ [c6Row] none c6Oracles).1 ∧
      ((extract_colors c6Config ⟨"cpu"⟩ [c6Row] none c6Oracles).1 = [] ∨
        ∃ pixels labels k weights,
          (∀ w ∈ weights, 0 ≤ w) ∧
          (extract_colors c6Config ⟨"cpu"⟩ [c6Row] none c6Oracles).1 =
            aggregate_results pixels labels k weights ∧
          ∀ c ∈ (extract_colors c6Config ⟨"cpu"⟩ [c6Row] none c6Oracles).1,
            ∃ idx, idx < k ∧ 0 < (bincountWeighted labels weights k).getD idx 0 ∧
              c.percentage = round1 ((bincountWeighted labels weights k).getD idx 0 /
                (bincountWeighted labels weights k).sum * 100))) :=
  ⟨⟨by norm_num [c6Config, GPUColorExtractor.mkConfig], fun i => by norm_num [c6Oracles]⟩,
   C6_cluster_list_invariants c6Config ⟨"cpu"⟩ [c6Row] none c6Oracles
     (by norm_num [c6Config, GPUColorExtractor.mkConfig]) (fun i => by norm_num [c6Oracles])⟩

set_option maxRecDepth 10000 in
unseal Rat.mul Rat.add Rat.sub Rat.inv in
/-- **C6 counterexample to the claim as stated**: on the 16-pixel region
with the constructor-default configuration, `extract_colors` returns four
clusters whose reported percentages are 43.8, 18.8, 18.8 and 18.8 — each
the half-even one-decimal rounding of 43.75 and 18.75 — so their sum is
100.2, outside the claimed interval (0, 100]. -/
theorem C6_percent_sum_exceeds_100 :
    (extract_colors c6Config ⟨"cpu"⟩ [c6Row] none c6Oracles).1.map (fun c => c.percentage) =
      [219 / 5, 94 / 5, 94 / 5, 94 / 5] ∧
    sumPercent (extract_colors c6Config ⟨"cpu"⟩ [c6Row] none c6Oracles).1 = 501 / 5 ∧
    ¬ sumPercent (extract_colors c6Config ⟨"cpu"⟩ [c6Row] none c6Oracles).1 ≤ 100 := by
  refine ⟨by decide, by decide, by decide⟩
